import Mathlib

/-!
Shallow embedding of `compiler/rustc_middle/src/mir/interpret/allocation/provenance_map.rs`.

Byte offsets (`Size` in the source) are modelled as `Nat`; the saturating
subtractions of the source are exactly `Nat` truncated subtraction.  The
ordered container `rustc_data_structures::sorted_map::SortedMap` is modelled
as an association list whose well-formedness (strictly increasing keys) is
carried as hypotheses of the theorems.  The provenance type `Prov` stays a
type parameter; its compile-time capability constant `Prov::OFFSET_IS_ADDR`
and the machine's pointer width (`cx.data_layout().pointer_size`) are packaged
in a `Config`.  Rust methods taking `&mut self` are modelled as functions
returning the new map; `clear` additionally returns its `AllocResult` outcome.
-/

namespace ProvSpec

/-- Model of `SortedMap<Size, V>`: an association list from byte offsets to
values, sorted by strictly increasing key in the well-formed case. -/
abbrev SortedMap (α : Type) := List (Nat × α)

namespace SortedMap

/-- Point lookup (`SortedMap::get`). -/
def get {α : Type} (m : SortedMap α) (k : Nat) : Option α :=
  match m with
  | [] => none
  | e :: rest => if e.1 = k then some e.2 else get rest k

/-- The slice of all entries whose key lies in the half-open interval
`[lo, hi)`, in map order (`SortedMap::range` at a `Range` bound). -/
def range {α : Type} (m : SortedMap α) (lo hi : Nat) : List (Nat × α) :=
  m.filter (fun e => lo ≤ e.1 && e.1 < hi)

/-- Delete every entry whose key lies in `[lo, hi)`
(`SortedMap::remove_range`). -/
def remove_range {α : Type} (m : SortedMap α) (lo hi : Nat) : SortedMap α :=
  m.filter (fun e => !(lo ≤ e.1 && e.1 < hi))

/-- Ordered insert-or-overwrite of a single key (`SortedMap::insert`). -/
def insert {α : Type} (m : SortedMap α) (k : Nat) (v : α) : SortedMap α :=
  match m with
  | [] => [(k, v)]
  | e :: rest =>
    if k < e.1 then (k, v) :: e :: rest
    else if k = e.1 then (k, v) :: rest
    else e :: insert rest k v

/-- Bulk merge of an already sorted, duplicate-free sequence
(`SortedMap::insert_presorted`); functionally a fold of ordered inserts. -/
def insert_presorted {α : Type} (m : SortedMap α) (xs : List (Nat × α)) : SortedMap α :=
  xs.foldl (fun acc e => insert acc e.1 e.2) m

end SortedMap

/-- The whole-machine context this module needs: the pointer width in bytes
(from `HasDataLayout`) and the provenance kind's capability constant
`Prov::OFFSET_IS_ADDR` (true exactly for splittable provenance). -/
structure Config where
  pointer_size : Nat
  offset_is_addr : Bool
deriving DecidableEq

/-- A half-open range `[start, start+size)` of byte offsets (`AllocRange`). -/
structure AllocRange where
  start : Nat
  size : Nat
deriving DecidableEq

/-- `AllocRange::end()`. -/
def AllocRange.stop (r : AllocRange) : Nat := r.start + r.size

/-- The two variants of `AllocError` this module can raise, each carrying the
offending byte offset. -/
inductive AllocError where
  | partialPointerOverwrite (offset : Nat)
  | partialPointerCopy (offset : Nat)
deriving DecidableEq

/-- `ProvenanceMap`: `ptrs` holds entries that each cover a full
pointer-size-wide span starting at their key; `bytes` holds entries covering
exactly one byte. -/
structure ProvenanceMap (Prov : Type) where
  ptrs : SortedMap Prov
  bytes : SortedMap Prov
deriving DecidableEq

namespace ProvenanceMap

/-- `ProvenanceMap::new`. -/
def new (Prov : Type) : ProvenanceMap Prov := ⟨[], []⟩

/-- `ProvenanceMap::from_presorted_ptrs`; the caller guarantees the list is
sorted by offset and duplicate-free. -/
def from_presorted_ptrs {Prov : Type} (r : List (Nat × Prov)) : ProvenanceMap Prov :=
  ⟨r, []⟩

/-- `range_get_ptrs`: all ptr-sized provenance overlapping the given range;
for a zero-length range, the provenance crossing the edge between
`start - 1` and `start`.  The probe start goes back `pointer_size - 1`
bytes, saturating at zero. -/
def range_get_ptrs {Prov : Type} (cfg : Config) (m : ProvenanceMap Prov) (r : AllocRange) :
    List (Nat × Prov) :=
  SortedMap.range m.ptrs (r.start - (cfg.pointer_size - 1)) r.stop

/-- `range_get_bytes`: all byte-wise provenance inside the given range. -/
def range_get_bytes {Prov : Type} (m : ProvenanceMap Prov) (r : AllocRange) :
    List (Nat × Prov) :=
  SortedMap.range m.bytes r.start r.stop

/-- `get`: the provenance of a single byte — the ptr-sized entry overlapping
it if any, else the byte-wise entry at it. -/
def get {Prov : Type} (cfg : Config) (m : ProvenanceMap Prov) (offset : Nat) : Option Prov :=
  match (range_get_ptrs cfg m ⟨offset, 1⟩).head? with
  | some entry => some entry.2
  | none => SortedMap.get m.bytes offset

/-- `get_ptr`: direct lookup in `ptrs`, with no backward adjustment. -/
def get_ptr {Prov : Type} (m : ProvenanceMap Prov) (offset : Nat) : Option Prov :=
  SortedMap.get m.ptrs offset

/-- `range_empty`: no ptr-sized provenance overlaps the range and no
byte-wise provenance lies inside it. -/
def range_empty {Prov : Type} (cfg : Config) (m : ProvenanceMap Prov) (r : AllocRange) : Bool :=
  (range_get_ptrs cfg m r).isEmpty && (range_get_bytes m r).isEmpty

/-- `provenances`: all stored values, ptr-sized entries first. -/
def provenances {Prov : Type} (m : ProvenanceMap Prov) : List Prov :=
  m.ptrs.map Prod.snd ++ m.bytes.map Prod.snd

/-- `insert_ptr`; its `debug_assert` contract is that `range_empty` holds of
the pointer-sized span starting at `offset`. -/
def insert_ptr {Prov : Type} (m : ProvenanceMap Prov) (offset : Nat) (prov : Prov) :
    ProvenanceMap Prov :=
  ⟨SortedMap.insert m.ptrs offset prov, m.bytes⟩

/-- The loop `for offset in lo..hi { map.insert(offset, v) }` used by `clear`
to downgrade the partially overwritten edges of a pointer to bytewise
provenance. -/
def insert_loop {α : Type} (m : SortedMap α) (lo hi : Nat) (v : α) : SortedMap α :=
  (List.range' lo (hi - lo)).foldl (fun acc o => SortedMap.insert acc o v) m

/-- The part of `clear` that runs once the overlapping ptr-sized provenance
has been sliced out of `ptrs` (the slice is passed as `slice`; `bytes0` is
the byte map after the initial bytewise removal).  `first` and `last` of the
source are the first slice entry's key and one past the last slice entry's
span; `self.ptrs[&first]` and `self.ptrs[&begin_of_last]` resolve to those
entries' own values, which is how they appear here. -/
def clear_core {Prov : Type} (cfg : Config) (ptrs : SortedMap Prov) (bytes0 : SortedMap Prov)
    (r : AllocRange) (slice : List (Nat × Prov)) :
    Except AllocError Unit × ProvenanceMap Prov :=
  match slice with
  | [] => (Except.ok (), ⟨ptrs, bytes0⟩)
  | pf :: rest =>
    let pl := List.getLast (pf :: rest) (List.cons_ne_nil pf rest)
    let first := pf.1
    let last := pl.1 + cfg.pointer_size
    if first < r.start ∧ cfg.offset_is_addr = false then
      (Except.error (AllocError.partialPointerOverwrite first), ⟨ptrs, bytes0⟩)
    else
      let bytes1 := if first < r.start then insert_loop bytes0 first r.start pf.2 else bytes0
      if last > r.stop ∧ cfg.offset_is_addr = false then
        (Except.error (AllocError.partialPointerOverwrite pl.1), ⟨ptrs, bytes1⟩)
      else
        let bytes2 := if last > r.stop then insert_loop bytes1 r.stop last pl.2 else bytes1
        (Except.ok (), ⟨SortedMap.remove_range ptrs first last, bytes2⟩)

/-- `clear`: removes all provenance inside the given range; fails with
`PartialPointerOverwrite` when a pointer entry sticking out of the range
cannot be split.  Rust mutates `self` in place, so we return the outcome
together with the resulting map; on every error path the map handed back is
the one Rust leaves behind (no mutation has happened yet there, because the
bytewise removal runs only for splittable provenance while the errors arise
only for non-splittable provenance). -/
def clear {Prov : Type} (cfg : Config) (m : ProvenanceMap Prov) (r : AllocRange) :
    Except AllocError Unit × ProvenanceMap Prov :=
  let bytes0 :=
    if cfg.offset_is_addr then SortedMap.remove_range m.bytes r.start r.stop else m.bytes
  clear_core cfg m.ptrs bytes0 r (range_get_ptrs cfg m r)

end ProvenanceMap

/-- `ProvenanceCopy`: the detached plan produced by `prepare_copy`, with
offsets already adjusted to the destination allocation. -/
structure ProvenanceCopy (Prov : Type) where
  dest_ptrs : List (Nat × Prov)
  dest_bytes : List (Nat × Prov)
deriving DecidableEq

namespace ProvenanceMap

/-- The closure `shift_offset` of `prepare_copy`: move a source offset into
repetition `i` of the destination. -/
def shift_offset (src : AllocRange) (dest : Nat) (i offset : Nat) : Nat :=
  (offset - src.start) + (dest + src.size * i)

/-- The start-edge step of `prepare_copy`: the byte fragment contributed by a
pointer straddling `src.start` (found by a zero-length probe there), or a
`PartialPointerCopy` error for non-splittable provenance. -/
def copy_start_bytes {Prov : Type} (cfg : Config) (m : ProvenanceMap Prov) (src : AllocRange) :
    Except AllocError (List (Nat × Prov)) :=
  match (range_get_ptrs cfg m ⟨src.start, 0⟩).head? with
  | none => Except.ok []
  | some entry =>
    if cfg.offset_is_addr = false then
      Except.error (AllocError.partialPointerCopy entry.1)
    else
      let entry_end := min (entry.1 + cfg.pointer_size) src.stop
      Except.ok ((List.range' src.start (entry_end - src.start)).map (fun o => (o, entry.2)))

/-- The end-edge step of `prepare_copy`: extend the collected byte fragments
with the part of a pointer straddling `src.stop`, skipping offsets already
present (detected by comparing against the last collected offset). -/
def copy_end_bytes {Prov : Type} (cfg : Config) (m : ProvenanceMap Prov) (src : AllocRange)
    (bytes : List (Nat × Prov)) : Except AllocError (List (Nat × Prov)) :=
  match (range_get_ptrs cfg m ⟨src.stop, 0⟩).head? with
  | none => Except.ok bytes
  | some entry =>
    if cfg.offset_is_addr = false then
      Except.error (AllocError.partialPointerCopy entry.1)
    else
      let entry_start := max entry.1 src.start
      Except.ok ((List.range' entry_start (src.stop - entry_start)).foldl
        (fun acc o =>
          match acc.getLast? with
          | none => acc ++ [(o, entry.2)]
          | some e => if e.1 < o then acc ++ [(o, entry.2)] else acc)
        bytes)

/-- The replication step of `prepare_copy`: concatenate, for `i` in
`0..count`, the collected entries shifted into repetition `i`. -/
def replicate_shifted {Prov : Type} (src : AllocRange) (dest : Nat) (count : Nat)
    (l : List (Nat × Prov)) : List (Nat × Prov) :=
  (List.range count).foldl
    (fun acc i => acc ++ l.map (fun e => (shift_offset src dest i e.1, e.2))) []

/-- `prepare_copy`: plan copying the provenance of `src` into `count`
repetitions starting at destination offset `dest`.  Pure: it only reads the
source map and builds a `ProvenanceCopy`, so on failure no map has been
touched. -/
def prepare_copy {Prov : Type} (cfg : Config) (m : ProvenanceMap Prov) (src : AllocRange)
    (dest : Nat) (count : Nat) : Except AllocError (ProvenanceCopy Prov) :=
  let ptr_size := cfg.pointer_size
  let ptrs :=
    if src.size < ptr_size then []
    else SortedMap.range m.ptrs src.start (src.stop - (ptr_size - 1))
  let dest_ptrs := replicate_shifted src dest count ptrs
  match copy_start_bytes cfg m src with
  | Except.error e => Except.error e
  | Except.ok bytes1 =>
    let bytes2 :=
      if cfg.offset_is_addr then bytes1 ++ SortedMap.range m.bytes src.start src.stop
      else bytes1
    match copy_end_bytes cfg m src bytes2 with
    | Except.error e => Except.error e
    | Except.ok bytes3 =>
      Except.ok ⟨dest_ptrs, replicate_shifted src dest count bytes3⟩

/-- `apply_copy`: bulk-insert a plan's two sequences into the destination
map.  Contract (caller's responsibility): the affected destination range has
already been cleared of provenance. -/
def apply_copy {Prov : Type} (cfg : Config) (m : ProvenanceMap Prov) (c : ProvenanceCopy Prov) :
    ProvenanceMap Prov :=
  ⟨SortedMap.insert_presorted m.ptrs c.dest_ptrs,
   if cfg.offset_is_addr then SortedMap.insert_presorted m.bytes c.dest_bytes else m.bytes⟩

end ProvenanceMap

/-- Keys pairwise at least `g` apart, in list order.  `PtrGap ps` is the
spacing invariant of `ptrs`; `PtrGap 1` is plain strict sortedness. -/
def PtrGap {Prov : Type} (g : Nat) (l : List (Nat × Prov)) : Prop :=
  List.Pairwise (fun a b => a.1 + g ≤ b.1) l

instance {Prov : Type} (g : Nat) (l : List (Nat × Prov)) : Decidable (PtrGap g l) :=
  List.instDecidablePairwise l

/-- The (strengthened) well-formedness invariant of a `ProvenanceMap`: ptr
entries are at least a pointer size apart, byte entries are strictly sorted
and lie outside every ptr entry's span, and the byte map is empty for
non-splittable provenance. -/
def Inv {Prov : Type} (cfg : Config) (m : ProvenanceMap Prov) : Prop :=
  PtrGap cfg.pointer_size m.ptrs ∧ PtrGap 1 m.bytes ∧
    (∀ b ∈ m.bytes, ∀ q ∈ m.ptrs, ¬(q.1 ≤ b.1 ∧ b.1 < q.1 + cfg.pointer_size)) ∧
    (cfg.offset_is_addr = false → m.bytes = [])

/-- The operation sequences of claim C1: maps built from an empty map or a
presorted, sufficiently spaced bulk construction by `insert_ptr` calls
satisfying their `range_empty` contract, arbitrary `clear` calls (keeping
whatever map `clear` leaves behind, also on failure), and `apply_copy` of a
plan successfully prepared from a source map satisfying the disjointness
invariant, applied to a destination whose affected range is empty of
provenance. -/
inductive Reachable {Prov : Type} (cfg : Config) : ProvenanceMap Prov → Prop where
  | new : Reachable cfg (ProvenanceMap.new Prov)
  | from_presorted (r : List (Nat × Prov)) (hr : PtrGap cfg.pointer_size r) :
      Reachable cfg (ProvenanceMap.from_presorted_ptrs r)
  | insert_ptr (m : ProvenanceMap Prov) (o : Nat) (p : Prov) (hm : Reachable cfg m)
      (hemp : ProvenanceMap.range_empty cfg m ⟨o, cfg.pointer_size⟩ = true) :
      Reachable cfg (ProvenanceMap.insert_ptr m o p)
  | clear (m : ProvenanceMap Prov) (r : AllocRange) (hm : Reachable cfg m) :
      Reachable cfg (ProvenanceMap.clear cfg m r).2
  | apply_copy (m msrc : ProvenanceMap Prov) (src : AllocRange) (dest count : Nat)
      (c : ProvenanceCopy Prov) (hm : Reachable cfg m)
      (hsrc_gap : PtrGap cfg.pointer_size msrc.ptrs)
      (hsrc_bs : PtrGap 1 msrc.bytes)
      (hsrc_disj : ∀ b ∈ msrc.bytes, ∀ q ∈ msrc.ptrs,
        ¬(q.1 ≤ b.1 ∧ b.1 < q.1 + cfg.pointer_size))
      (hok : ProvenanceMap.prepare_copy cfg msrc src dest count = Except.ok c)
      (hcleared : ProvenanceMap.range_empty cfg m ⟨dest, src.size * count⟩ = true) :
      Reachable cfg (ProvenanceMap.apply_copy cfg m c)

namespace SortedMap

theorem mem_range {α : Type} {m : SortedMap α} {lo hi : Nat} {e : Nat × α} :
    e ∈ range m lo hi ↔ e ∈ m ∧ (lo ≤ e.1 ∧ e.1 < hi) := by
  simp [range, List.mem_filter]

theorem range_eq_nil {α : Type} {m : SortedMap α} {lo hi : Nat}
    (h : ∀ e ∈ m, ¬(lo ≤ e.1 ∧ e.1 < hi)) : range m lo hi = [] := by
  refine List.filter_eq_nil_iff.mpr (fun e he => ?_)
  have h2 := h e he
  by_cases hlo : lo ≤ e.1
  · have hhi : ¬ e.1 < hi := fun hc => h2 ⟨hlo, hc⟩
    simp [hlo, hhi]
  · simp [hlo]

theorem mem_remove_range {α : Type} {m : SortedMap α} {lo hi : Nat} {e : Nat × α} :
    e ∈ remove_range m lo hi ↔ e ∈ m ∧ ¬(lo ≤ e.1 ∧ e.1 < hi) := by
  rw [remove_range, List.mem_filter]
  refine and_congr_right (fun _ => ?_)
  by_cases hlo : lo ≤ e.1 <;> by_cases hhi : e.1 < hi <;> simp [hlo, hhi]

theorem remove_range_eq_self {α : Type} {m : SortedMap α} {lo hi : Nat}
    (h : ∀ e ∈ m, ¬(lo ≤ e.1 ∧ e.1 < hi)) : remove_range m lo hi = m := by
  refine List.filter_eq_self.mpr (fun e he => ?_)
  have h2 := h e he
  by_cases hlo : lo ≤ e.1
  · have hhi : ¬ e.1 < hi := fun hc => h2 ⟨hlo, hc⟩
    simp [hlo, hhi]
  · simp [hlo]

theorem mem_insert {α : Type} {m : SortedMap α} {k : Nat} {v : α} {e : Nat × α} :
    e ∈ insert m k v → e = (k, v) ∨ e ∈ m := by
  induction m with
  | nil => intro h; simpa [insert] using h
  | cons a rest ih =>
    intro h
    rw [insert] at h
    by_cases h1 : k < a.1
    · rw [if_pos h1] at h
      rcases List.mem_cons.mp h with h | h
      · exact Or.inl h
      · exact Or.inr h
    · rw [if_neg h1] at h
      by_cases h2 : k = a.1
      · rw [if_pos h2] at h
        rcases List.mem_cons.mp h with h | h
        · exact Or.inl h
        · exact Or.inr (List.mem_cons_of_mem a h)
      · rw [if_neg h2] at h
        rcases List.mem_cons.mp h with h | h
        · exact Or.inr (h ▸ List.mem_cons_self a rest)
        · rcases ih h with h3 | h3
          · exact Or.inl h3
          · exact Or.inr (List.mem_cons_of_mem a h3)

theorem self_mem_insert {α : Type} (m : SortedMap α) (k : Nat) (v : α) :
    (k, v) ∈ insert m k v := by
  induction m with
  | nil => simp [insert]
  | cons a rest ih =>
    rw [insert]
    by_cases h1 : k < a.1
    · rw [if_pos h1]; exact List.mem_cons_self _ _
    · rw [if_neg h1]
      by_cases h2 : k = a.1
      · rw [if_pos h2]; exact List.mem_cons_self _ _
      · rw [if_neg h2]; exact List.mem_cons_of_mem a ih

theorem get_insert {α : Type} (m : SortedMap α) (k j : Nat) (v : α) :
    get (insert m k v) j = if j = k then some v else get m j := by
  induction m with
  | nil =>
    by_cases h : j = k
    · subst h; simp [insert, get]
    · simp [insert, get, h, Ne.symm h]
  | cons a rest ih =>
    rw [insert]
    by_cases h1 : k < a.1
    · rw [if_pos h1]
      by_cases h : j = k
      · subst h; simp [get]
      · rw [get, if_neg (fun hh : k = j => h hh.symm), if_neg h]
    · rw [if_neg h1]
      by_cases h2 : k = a.1
      · rw [if_pos h2]
        by_cases h : j = k
        · subst h; simp [get]
        · simp [get, h, Ne.symm h, ← h2]
      · rw [if_neg h2]
        by_cases h : a.1 = j
        · have hjk : ¬ j = k := by omega
          simp [get, h, hjk]
        · simp [get, h, ih]

theorem get_filter_of_key_true {α : Type} {p : Nat × α → Bool} (m : SortedMap α) (k : Nat)
    (h : ∀ v : α, p (k, v) = true) : get (m.filter p) k = get m k := by
  induction m with
  | nil => simp
  | cons a rest ih =>
    by_cases hk : a.1 = k
    · have : p a = true := by
        have := h a.2
        rw [← hk] at this
        simpa using this
      rw [List.filter_cons_of_pos this, get, if_pos hk, get, if_pos hk]
    · rw [get, if_neg hk, ← ih]
      by_cases hp : p a = true
      · rw [List.filter_cons_of_pos hp, get, if_neg hk]
      · rw [List.filter_cons_of_neg (by simpa using hp)]

theorem get_filter_of_key_false {α : Type} {p : Nat × α → Bool} (m : SortedMap α) (k : Nat)
    (h : ∀ v : α, p (k, v) = false) : get (m.filter p) k = none := by
  induction m with
  | nil => simp [get]
  | cons a rest ih =>
    by_cases hk : a.1 = k
    · have : p a = false := by
        have := h a.2
        rw [← hk] at this
        simpa using this
      rw [List.filter_cons_of_neg (by simp [this])]
      exact ih
    · by_cases hp : p a = true
      · rw [List.filter_cons_of_pos hp, get, if_neg hk]
        exact ih
      · rw [List.filter_cons_of_neg (by simpa using hp)]
        exact ih

theorem get_remove_range {α : Type} (m : SortedMap α) (lo hi k : Nat) :
    get (remove_range m lo hi) k =
      if lo ≤ k ∧ k < hi then none else get m k := by
  by_cases h : lo ≤ k ∧ k < hi
  · rw [if_pos h]
    exact get_filter_of_key_false m k (fun v => by simp [h.1, h.2])
  · rw [if_neg h]
    refine get_filter_of_key_true m k (fun v => ?_)
    simp only [Bool.not_eq_true']
    by_cases h1 : lo ≤ k
    · have h2 : ¬ k < hi := fun hh => h ⟨h1, hh⟩
      simp [h1, h2]
    · simp [h1]

theorem mem_insert_presorted {α : Type} {m : SortedMap α} {xs : List (Nat × α)} {e : Nat × α} :
    e ∈ insert_presorted m xs → e ∈ m ∨ e ∈ xs := by
  induction xs generalizing m with
  | nil => exact fun h => Or.inl h
  | cons x rest ih =>
    intro h
    rw [insert_presorted, List.foldl_cons] at h
    have h0 : e ∈ insert_presorted (insert m x.1 x.2) rest := h
    rcases ih h0 with h1 | h1
    · rcases mem_insert h1 with h2 | h2
      · exact Or.inr (by rw [h2]; exact List.mem_cons_self x rest)
      · exact Or.inl h2
    · exact Or.inr (List.mem_cons_of_mem x h1)

end SortedMap

theorem gap_mono {Prov : Type} {g h : Nat} {l : List (Nat × Prov)} (hle : h ≤ g)
    (hg : PtrGap g l) : PtrGap h l :=
  hg.imp (fun hab => le_trans (Nat.add_le_add_left hle _) hab)

theorem gap_pair_rel {Prov : Type} {g : Nat} {l : List (Nat × Prov)} (hg : PtrGap g l)
    {a b : Nat × Prov} (ha : a ∈ l) (hb : b ∈ l) :
    a = b ∨ a.1 + g ≤ b.1 ∨ b.1 + g ≤ a.1 := by
  by_cases hab : a = b
  · exact Or.inl hab
  · refine Or.inr ?_
    have hsym : Symmetric (fun x y : Nat × Prov => x.1 + g ≤ y.1 ∨ y.1 + g ≤ x.1) := by
      intro x y hxy
      exact hxy.symm
    have := (hg.imp (fun hxy => Or.inl hxy)).forall hsym ha hb hab
    exact this

theorem gap_eq_of_same_key {Prov : Type} {g : Nat} {l : List (Nat × Prov)} (hps : 1 ≤ g)
    (hg : PtrGap g l) {k : Nat} {v1 v2 : Prov} (h1 : (k, v1) ∈ l) (h2 : (k, v2) ∈ l) :
    v1 = v2 := by
  rcases gap_pair_rel hg h1 h2 with h | h | h
  · exact congrArg Prod.snd h
  · omega
  · omega

theorem head?_all_eq {α : Type} {l : List α} {a : α} (hne : l ≠ [])
    (hall : ∀ x ∈ l, x = a) : l.head? = some a := by
  cases l with
  | nil => exact absurd rfl hne
  | cons b t =>
    have : b = a := hall b (List.mem_cons_self b t)
    simp [this]

theorem all_eq_singleton {Prov : Type} {l : List (Nat × Prov)} {a : Nat × Prov}
    (hne : l ≠ []) (hall : ∀ x ∈ l, x = a) (hs : PtrGap 1 l) : l = [a] := by
  cases l with
  | nil => exact absurd rfl hne
  | cons b t =>
    have hb : b = a := hall b (List.mem_cons_self b t)
    cases t with
    | nil => rw [hb]
    | cons c t2 =>
      have hc : c = a := hall c (List.mem_cons_of_mem b (List.mem_cons_self c t2))
      rcases List.pairwise_cons.mp hs with ⟨hrel, _⟩
      have := hrel c (List.mem_cons_self c t2)
      rw [hb, hc] at this
      omega

theorem head_key_le {Prov : Type} {l : List (Nat × Prov)} (hs : PtrGap 1 l)
    {a x : Nat × Prov} (ha : l.head? = some a) (hx : x ∈ l) : a.1 ≤ x.1 := by
  cases l with
  | nil => simp at ha
  | cons b t =>
    have hab : a = b := by simpa using ha.symm
    subst hab
    rcases List.mem_cons.mp hx with h | h
    · rw [h]
    · rcases List.pairwise_cons.mp hs with ⟨hrel, _⟩
      have := hrel x h
      omega

theorem le_getLast_key {Prov : Type} {l : List (Nat × Prov)} (hs : PtrGap 1 l)
    {a x : Nat × Prov} (ha : l.getLast? = some a) (hx : x ∈ l) : x.1 ≤ a.1 := by
  induction l with
  | nil => simp at ha
  | cons b t ih =>
    cases t with
    | nil =>
      have hab : a = b := by simpa using ha.symm
      subst hab
      rcases List.mem_cons.mp hx with h | h
      · rw [h]
      · simp at h
    | cons c t2 =>
      rw [List.getLast?_cons_cons] at ha
      rcases List.pairwise_cons.mp hs with ⟨hrel, hs2⟩
      rcases List.mem_cons.mp hx with h | h
      · have hmem : a ∈ c :: t2 := by
          have h1 : (c :: t2).getLast (List.cons_ne_nil c t2) = a := by
            have := List.getLast?_eq_getLast (c :: t2) (List.cons_ne_nil c t2)
            rw [this] at ha
            exact Option.some_injective _ ha
          rw [← h1]
          exact List.getLast_mem _
        have := hrel a hmem
        rw [h]
        omega
      · exact ih hs2 ha h

theorem insert_sorted {α : Type} (k : Nat) (v : α) :
    ∀ m : SortedMap α, PtrGap 1 m → PtrGap 1 (SortedMap.insert m k v) := by
  intro m
  induction m with
  | nil => intro _; simp [SortedMap.insert, PtrGap]
  | cons a rest ih =>
    intro hs
    rcases List.pairwise_cons.mp hs with ⟨hrel, hs2⟩
    rw [SortedMap.insert]
    by_cases h1 : k < a.1
    · rw [if_pos h1]
      refine List.pairwise_cons.mpr ⟨?_, hs⟩
      intro x hx
      rcases List.mem_cons.mp hx with h | h
      · subst h; omega
      · have := hrel x h; omega
    · rw [if_neg h1]
      by_cases h2 : k = a.1
      · rw [if_pos h2]
        refine List.pairwise_cons.mpr ⟨?_, hs2⟩
        intro x hx
        have := hrel x hx; omega
      · rw [if_neg h2]
        refine List.pairwise_cons.mpr ⟨?_, ih hs2⟩
        intro x hx
        rcases SortedMap.mem_insert hx with h | h
        · subst h; omega
        · exact hrel x h

theorem insert_gap {α : Type} (g : Nat) (k : Nat) (v : α) :
    ∀ m : SortedMap α, PtrGap g m → (∀ e ∈ m, e.1 + g ≤ k ∨ k + g ≤ e.1) →
      PtrGap g (SortedMap.insert m k v) := by
  intro m
  induction m with
  | nil => intro _ _; simp [SortedMap.insert, PtrGap]
  | cons a rest ih =>
    intro hg hfar
    rcases List.pairwise_cons.mp hg with ⟨hrel, hg2⟩
    have hfa := hfar a (List.mem_cons_self a rest)
    rw [SortedMap.insert]
    by_cases h1 : k < a.1
    · rw [if_pos h1]
      refine List.pairwise_cons.mpr ⟨?_, hg⟩
      intro x hx
      rcases List.mem_cons.mp hx with h | h
      · subst h; omega
      · have h3 := hrel x h
        have h4 := hfar x (List.mem_cons_of_mem a h)
        omega
    · rw [if_neg h1]
      by_cases h2 : k = a.1
      · rw [if_pos h2]
        refine List.pairwise_cons.mpr ⟨?_, hg2⟩
        intro x hx
        have := hrel x hx; omega
      · rw [if_neg h2]
        refine List.pairwise_cons.mpr
          ⟨?_, ih hg2 (fun e he => hfar e (List.mem_cons_of_mem a he))⟩
        intro x hx
        rcases SortedMap.mem_insert hx with h | h
        · subst h; omega
        · exact hrel x h

theorem get_foldl_insert {α : Type} (v : α) :
    ∀ (n lo : Nat) (m : SortedMap α) (k : Nat),
      SortedMap.get ((List.range' lo n).foldl (fun acc o => SortedMap.insert acc o v) m) k =
        if lo ≤ k ∧ k < lo + n then some v else SortedMap.get m k := by
  intro n
  induction n with
  | zero =>
    intro lo m k
    rw [List.range'_zero, List.foldl_nil, if_neg (by omega)]
  | succ n ih =>
    intro lo m k
    rw [List.range'_succ, List.foldl_cons, ih]
    by_cases h : lo + 1 ≤ k ∧ k < lo + 1 + n
    · rw [if_pos h, if_pos (by omega)]
    · rw [if_neg h, SortedMap.get_insert]
      by_cases hk : k = lo
      · rw [if_pos hk, if_pos (by omega)]
      · rw [if_neg hk, if_neg (by omega)]

theorem get_insert_loop {α : Type} (m : SortedMap α) (lo hi k : Nat) (v : α) :
    SortedMap.get (ProvenanceMap.insert_loop m lo hi v) k =
      if lo ≤ k ∧ k < hi then some v else SortedMap.get m k := by
  rw [ProvenanceMap.insert_loop, get_foldl_insert]
  by_cases h : lo ≤ k ∧ k < hi
  · rw [if_pos (by omega), if_pos h]
  · rw [if_neg (by omega), if_neg h]

theorem mem_foldl_insert {α : Type} (v : α) :
    ∀ (n lo : Nat) (m : SortedMap α) (e : Nat × α),
      e ∈ (List.range' lo n).foldl (fun acc o => SortedMap.insert acc o v) m →
        (lo ≤ e.1 ∧ e.1 < lo + n ∧ e.2 = v) ∨ e ∈ m := by
  intro n
  induction n with
  | zero =>
    intro lo m e h
    rw [List.range'_zero, List.foldl_nil] at h
    exact Or.inr h
  | succ n ih =>
    intro lo m e h
    rw [List.range'_succ, List.foldl_cons] at h
    rcases ih _ _ _ h with h1 | h1
    · exact Or.inl ⟨by omega, by omega, h1.2.2⟩
    · rcases SortedMap.mem_insert h1 with h2 | h2
      · subst h2; exact Or.inl ⟨le_refl _, by omega, rfl⟩
      · exact Or.inr h2

theorem mem_insert_loop {α : Type} {m : SortedMap α} {lo hi : Nat} {v : α} {e : Nat × α}
    (h : e ∈ ProvenanceMap.insert_loop m lo hi v) :
    (lo ≤ e.1 ∧ e.1 < hi ∧ e.2 = v) ∨ e ∈ m := by
  rw [ProvenanceMap.insert_loop] at h
  rcases mem_foldl_insert v _ _ _ _ h with h1 | h1
  · exact Or.inl ⟨h1.1, by omega, h1.2.2⟩
  · exact Or.inr h1

theorem foldl_insert_sorted {α : Type} (v : α) :
    ∀ (n lo : Nat) (m : SortedMap α), PtrGap 1 m →
      PtrGap 1 ((List.range' lo n).foldl (fun acc o => SortedMap.insert acc o v) m) := by
  intro n
  induction n with
  | zero => intro lo m h; rw [List.range'_zero, List.foldl_nil]; exact h
  | succ n ih =>
    intro lo m h
    rw [List.range'_succ, List.foldl_cons]
    exact ih _ _ (insert_sorted _ _ _ h)

theorem insert_loop_sorted {α : Type} {m : SortedMap α} (h : PtrGap 1 m) (lo hi : Nat) (v : α) :
    PtrGap 1 (ProvenanceMap.insert_loop m lo hi v) := by
  rw [ProvenanceMap.insert_loop]
  exact foldl_insert_sorted v _ _ _ h

theorem insert_presorted_sorted {α : Type} :
    ∀ (xs : List (Nat × α)) (m : SortedMap α), PtrGap 1 m →
      PtrGap 1 (SortedMap.insert_presorted m xs) := by
  intro xs
  induction xs with
  | nil => intro m h; exact h
  | cons x rest ih =>
    intro m h
    rw [SortedMap.insert_presorted, List.foldl_cons]
    exact ih _ (insert_sorted _ _ _ h)

theorem insert_presorted_gap {α : Type} (g : Nat) :
    ∀ (xs : List (Nat × α)) (m : SortedMap α), PtrGap g m → PtrGap g xs →
      (∀ x ∈ xs, ∀ e ∈ m, e.1 + g ≤ x.1 ∨ x.1 + g ≤ e.1) →
      PtrGap g (SortedMap.insert_presorted m xs) := by
  intro xs
  induction xs with
  | nil => intro m hm _ _; exact hm
  | cons x rest ih =>
    intro m hm hxs hcross
    rw [SortedMap.insert_presorted, List.foldl_cons]
    rcases List.pairwise_cons.mp hxs with ⟨hxrel, hxs2⟩
    have h0 : PtrGap g (SortedMap.insert m x.1 x.2) :=
      insert_gap g x.1 x.2 m hm (fun e he => hcross x (List.mem_cons_self x rest) e he)
    refine ih _ h0 hxs2 ?_
    intro y hy e he
    rcases SortedMap.mem_insert he with h | h
    · subst h
      exact Or.inl (hxrel y hy)
    · exact hcross y (List.mem_cons_of_mem x hy) e h

theorem mem_range_get_ptrs {Prov : Type} {cfg : Config} {m : ProvenanceMap Prov}
    {r : AllocRange} {e : Nat × Prov} :
    e ∈ ProvenanceMap.range_get_ptrs cfg m r ↔
      e ∈ m.ptrs ∧ (r.start - (cfg.pointer_size - 1) ≤ e.1 ∧ e.1 < r.stop) :=
  SortedMap.mem_range

theorem mem_range_get_bytes {Prov : Type} {m : ProvenanceMap Prov}
    {r : AllocRange} {e : Nat × Prov} :
    e ∈ ProvenanceMap.range_get_bytes m r ↔
      e ∈ m.bytes ∧ (r.start ≤ e.1 ∧ e.1 < r.stop) :=
  SortedMap.mem_range

theorem range_empty_iff {Prov : Type} {cfg : Config} {m : ProvenanceMap Prov} {r : AllocRange} :
    ProvenanceMap.range_empty cfg m r = true ↔
      ProvenanceMap.range_get_ptrs cfg m r = [] ∧
        ProvenanceMap.range_get_bytes m r = [] := by
  rw [ProvenanceMap.range_empty]
  simp [List.isEmpty_iff]

theorem range_get_bytes_zero_len {Prov : Type} (m : ProvenanceMap Prov) (X : Nat) :
    ProvenanceMap.range_get_bytes m ⟨X, 0⟩ = [] := by
  rw [ProvenanceMap.range_get_bytes]
  apply SortedMap.range_eq_nil
  intro e _
  simp only [AllocRange.stop]
  omega

theorem get_eq_of_cover {Prov : Type} {cfg : Config} {m : ProvenanceMap Prov}
    (hps : 1 ≤ cfg.pointer_size) (hgap : PtrGap cfg.pointer_size m.ptrs)
    {k o : Nat} {p : Prov} (hk : (k, p) ∈ m.ptrs) (h1 : k ≤ o)
    (h2 : o < k + cfg.pointer_size) : ProvenanceMap.get cfg m o = some p := by
  have hstop : (AllocRange.mk o 1).stop = o + 1 := rfl
  have hall : ∀ e ∈ ProvenanceMap.range_get_ptrs cfg m ⟨o, 1⟩, e = (k, p) := by
    intro e he
    rcases mem_range_get_ptrs.mp he with ⟨hmem, hlo, hhi⟩
    rw [hstop] at hhi
    have hlo2 : o - (cfg.pointer_size - 1) ≤ e.1 := hlo
    rcases gap_pair_rel hgap hmem hk with h | h | h
    · exact h
    · omega
    · omega
  have hne : ProvenanceMap.range_get_ptrs cfg m ⟨o, 1⟩ ≠ [] := by
    intro hnil
    have hmm : (k, p) ∈ ProvenanceMap.range_get_ptrs cfg m ⟨o, 1⟩ := by
      refine mem_range_get_ptrs.mpr ⟨hk, ?_, ?_⟩
      · exact (by omega : o - (cfg.pointer_size - 1) ≤ k)
      · rw [hstop]; omega
    rw [hnil] at hmm
    simp at hmm
  have hh : (ProvenanceMap.range_get_ptrs cfg m ⟨o, 1⟩).head? = some (k, p) :=
    head?_all_eq hne hall
  rw [ProvenanceMap.get, hh]

theorem get_eq_bytes_of_not_covered {Prov : Type} {cfg : Config} {m : ProvenanceMap Prov}
    (hps : 1 ≤ cfg.pointer_size) {o : Nat}
    (h : ∀ e ∈ m.ptrs, ¬(e.1 ≤ o ∧ o < e.1 + cfg.pointer_size)) :
    ProvenanceMap.get cfg m o = SortedMap.get m.bytes o := by
  have hnil : ProvenanceMap.range_get_ptrs cfg m ⟨o, 1⟩ = [] := by
    rw [ProvenanceMap.range_get_ptrs]
    apply SortedMap.range_eq_nil
    intro e he
    have h2 := h e he
    simp only [AllocRange.stop]
    omega
  have hh : (ProvenanceMap.range_get_ptrs cfg m ⟨o, 1⟩).head? = none := by
    rw [hnil]; rfl
  rw [ProvenanceMap.get, hh]

instance {ε α : Type} [DecidableEq ε] [DecidableEq α] : DecidableEq (Except ε α) :=
  fun a b =>
  match a, b with
  | Except.ok x, Except.ok y =>
    match decEq x y with
    | isTrue h => isTrue (by rw [h])
    | isFalse h => isFalse (by intro hc; cases hc; exact h rfl)
  | Except.ok _, Except.error _ => isFalse (by intro hc; cases hc)
  | Except.error _, Except.ok _ => isFalse (by intro hc; cases hc)
  | Except.error e, Except.error f =>
    match decEq e f with
    | isTrue h => isTrue (by rw [h])
    | isFalse h => isFalse (by intro hc; cases hc; exact h rfl)

/-! ## Claim C5 (edge-splitting example)

The claim asserts that with pointer width 8 and a splittable pointer-sized
entry at offset 4, clearing `[6, 10)` leaves byte-wise entries at offsets 4
and 5 and no entry covering any offset in 6 through 11.  The entry's span is
`[4, 12)`, so `clear` also downgrades the suffix `[10, 12)` to byte-wise
entries: offsets 10 and 11 keep the provenance, refuting the claim. -/

/-- C5, counterexample: after the clear of the claim's scenario, offset 10
still answers `get` with the original provenance, contradicting the claim's
assertion that offsets 6 through 11 carry no entry. -/
theorem c5_counterexample :
    ¬ (∀ x : Nat, 6 ≤ x → x < 12 →
        ProvenanceMap.get ⟨8, true⟩
          (ProvenanceMap.clear ⟨8, true⟩ (⟨[(4, 6)], []⟩ : ProvenanceMap Nat) ⟨6, 4⟩).2 x =
          none) :=
  fun h => absurd (h 10 (by decide) (by decide)) (by decide)

/-- C5, amended: clearing `[6, 10)` over a splittable pointer-sized entry at
offset 4 (width 8) succeeds, leaves byte-wise entries with the original
provenance at offsets 4, 5, 10 and 11 (the un-cleared prefix and suffix of
the span `[4, 12)`), and leaves no entry covering any offset in 6 through
9. -/
theorem c5_amended :
    (ProvenanceMap.clear ⟨8, true⟩ (⟨[(4, 6)], []⟩ : ProvenanceMap Nat) ⟨6, 4⟩).1 =
        Except.ok () ∧
      (ProvenanceMap.clear ⟨8, true⟩ (⟨[(4, 6)], []⟩ : ProvenanceMap Nat) ⟨6, 4⟩).2.ptrs =
        [] ∧
      (∀ x ∈ [4, 5, 10, 11],
        SortedMap.get
          (ProvenanceMap.clear ⟨8, true⟩ (⟨[(4, 6)], []⟩ : ProvenanceMap Nat) ⟨6, 4⟩).2.bytes
          x = some 6) ∧
      (∀ x ∈ [6, 7, 8, 9],
        ProvenanceMap.get ⟨8, true⟩
          (ProvenanceMap.clear ⟨8, true⟩ (⟨[(4, 6)], []⟩ : ProvenanceMap Nat) ⟨6, 4⟩).2 x =
          none) := by
  decide

/-! ## Claim C6 (zero-length boundary probe) -/

/-- C6, counterexample: with pointer width 8 and a single pointer-sized
entry at offset 4, `range_empty` on the zero-length range `[4, 4)` returns
`true`, not `false` as the claim demands: the backward-adjusted window
`[X - (pointer_size - 1), X)` of a zero-length probe at `X` never contains
an entry starting exactly at `X`. -/
theorem c6_counterexample :
    ¬ (ProvenanceMap.range_empty ⟨8, true⟩ (⟨[(4, 6)], []⟩ : ProvenanceMap Nat) ⟨4, 0⟩ =
        false) := by
  decide

/-- C6, amended: for a map with a pointer-sized entry at `o` and no other
entry whose start lies in `[o - pointer_size, o)` (no entry abutting or
crossing the boundary), the zero-length probe at `o` returns `true` (not
`false` as claimed) and the probe at `o - 1` returns `true`; in general a
zero-length probe at `X` sees exactly the pointer-sized entries whose start
lies in `[X - (pointer_size - 1), X)`. -/
theorem c6_amended {Prov : Type} (cfg : Config) (m : ProvenanceMap Prov) (o : Nat) (p : Prov)
    (hmem : (o, p) ∈ m.ptrs)
    (hno : ∀ e ∈ m.ptrs, ¬(o - cfg.pointer_size ≤ e.1 ∧ e.1 < o)) :
    ProvenanceMap.range_empty cfg m ⟨o, 0⟩ = true ∧
      ProvenanceMap.range_empty cfg m ⟨o - 1, 0⟩ = true ∧
      (∀ (X : Nat) (e : Nat × Prov),
        e ∈ ProvenanceMap.range_get_ptrs cfg m ⟨X, 0⟩ ↔
          e ∈ m.ptrs ∧ (X - (cfg.pointer_size - 1) ≤ e.1 ∧ e.1 < X)) := by
  refine ⟨?_, ?_, ?_⟩
  · refine range_empty_iff.mpr ⟨?_, range_get_bytes_zero_len m o⟩
    rw [ProvenanceMap.range_get_ptrs]
    apply SortedMap.range_eq_nil
    intro e he
    have h2 := hno e he
    show ¬(o - (cfg.pointer_size - 1) ≤ e.1 ∧ e.1 < o)
    omega
  · refine range_empty_iff.mpr ⟨?_, range_get_bytes_zero_len m (o - 1)⟩
    rw [ProvenanceMap.range_get_ptrs]
    apply SortedMap.range_eq_nil
    intro e he
    have h2 := hno e he
    show ¬(o - 1 - (cfg.pointer_size - 1) ≤ e.1 ∧ e.1 < o - 1)
    omega
  · intro X e
    exact mem_range_get_ptrs

/-- C6, witness for the amended theorem at a concrete map. -/
theorem c6_amended_witness :
    ((20, 3) ∈ (⟨[(20, 3)], []⟩ : ProvenanceMap Nat).ptrs ∧
        (∀ e ∈ (⟨[(20, 3)], []⟩ : ProvenanceMap Nat).ptrs,
          ¬(20 - (8 : Nat) ≤ e.1 ∧ e.1 < 20))) ∧
      (ProvenanceMap.range_empty ⟨8, true⟩ (⟨[(20, 3)], []⟩ : ProvenanceMap Nat) ⟨20, 0⟩ =
          true ∧
        ProvenanceMap.range_empty ⟨8, true⟩ (⟨[(20, 3)], []⟩ : ProvenanceMap Nat)
            ⟨20 - 1, 0⟩ = true ∧
        (∀ (X : Nat) (e : Nat × Nat),
          e ∈ ProvenanceMap.range_get_ptrs ⟨8, true⟩
              (⟨[(20, 3)], []⟩ : ProvenanceMap Nat) ⟨X, 0⟩ ↔
            e ∈ (⟨[(20, 3)], []⟩ : ProvenanceMap Nat).ptrs ∧
              (X - (8 - 1) ≤ e.1 ∧ e.1 < X))) :=
  ⟨⟨by decide, by decide⟩,
    c6_amended ⟨8, true⟩ (⟨[(20, 3)], []⟩ : ProvenanceMap Nat) 20 3 (by decide) (by decide)⟩

/-! ## Claim C7 (insert/get round-trip) -/

/-- C7: if the pointer-sized span starting at `o` is empty of provenance
(the contract of `insert_ptr`), then after `insert_ptr(o, p)` a `get`
anywhere in the span `[o, o + pointer_size)` returns `p`: at `o` itself and
at every interior offset. -/
theorem c7_insert_get_roundtrip {Prov : Type} (cfg : Config) (m : ProvenanceMap Prov)
    (o : Nat) (p : Prov) (hps : 1 ≤ cfg.pointer_size)
    (hempty : ProvenanceMap.range_empty cfg m ⟨o, cfg.pointer_size⟩ = true) :
    ProvenanceMap.get cfg (ProvenanceMap.insert_ptr m o p) o = some p ∧
      ∀ x : Nat, o + 1 ≤ x → x < o + cfg.pointer_size →
        ProvenanceMap.get cfg (ProvenanceMap.insert_ptr m o p) x = some p := by
  have hptr : ProvenanceMap.range_get_ptrs cfg m ⟨o, cfg.pointer_size⟩ = [] :=
    (range_empty_iff.mp hempty).1
  have hfar : ∀ e ∈ m.ptrs,
      ¬(o - (cfg.pointer_size - 1) ≤ e.1 ∧ e.1 < o + cfg.pointer_size) := by
    intro e he hc
    have hm : e ∈ ProvenanceMap.range_get_ptrs cfg m ⟨o, cfg.pointer_size⟩ :=
      mem_range_get_ptrs.mpr ⟨he, hc⟩
    rw [hptr] at hm
    simp at hm
  have main : ∀ x : Nat, o ≤ x → x < o + cfg.pointer_size →
      ProvenanceMap.get cfg (ProvenanceMap.insert_ptr m o p) x = some p := by
    intro x hxo hxs
    have hstop : (AllocRange.mk x 1).stop = x + 1 := rfl
    have hall : ∀ e ∈ ProvenanceMap.range_get_ptrs cfg
        (ProvenanceMap.insert_ptr m o p) ⟨x, 1⟩, e = (o, p) := by
      intro e he
      rcases mem_range_get_ptrs.mp he with ⟨hmm, hlo, hhi⟩
      rw [hstop] at hhi
      have hlo2 : x - (cfg.pointer_size - 1) ≤ e.1 := hlo
      rcases SortedMap.mem_insert hmm with h | h
      · exact h
      · exact absurd ⟨by omega, by omega⟩ (hfar e h)
    have hne : ProvenanceMap.range_get_ptrs cfg (ProvenanceMap.insert_ptr m o p) ⟨x, 1⟩ ≠
        [] := by
      intro hnil
      have hm : (o, p) ∈ ProvenanceMap.range_get_ptrs cfg
          (ProvenanceMap.insert_ptr m o p) ⟨x, 1⟩ := by
        refine mem_range_get_ptrs.mpr ⟨SortedMap.self_mem_insert m.ptrs o p, ?_, ?_⟩
        · exact (by omega : x - (cfg.pointer_size - 1) ≤ o)
        · rw [hstop]; omega
      rw [hnil] at hm
      simp at hm
    have hh : (ProvenanceMap.range_get_ptrs cfg
        (ProvenanceMap.insert_ptr m o p) ⟨x, 1⟩).head? = some (o, p) :=
      head?_all_eq hne hall
    rw [ProvenanceMap.get, hh]
  exact ⟨main o (le_refl o) (by omega), fun x h1 h2 => main x (by omega) h2⟩

/-- C7, witness at a concrete map: an unrelated pointer entry at offset 20
and byte entry at offset 3, inserting at offset 8. -/
theorem c7_witness :
    ((1 : Nat) ≤ (8 : Nat) ∧
        ProvenanceMap.range_empty ⟨8, true⟩
          (⟨[(20, 1)], [(3, 2)]⟩ : ProvenanceMap Nat) ⟨8, 8⟩ = true) ∧
      (ProvenanceMap.get ⟨8, true⟩
          (ProvenanceMap.insert_ptr (⟨[(20, 1)], [(3, 2)]⟩ : ProvenanceMap Nat) 8 5) 8 =
          some 5 ∧
        ∀ x : Nat, 8 + 1 ≤ x → x < 8 + 8 →
          ProvenanceMap.get ⟨8, true⟩
            (ProvenanceMap.insert_ptr (⟨[(20, 1)], [(3, 2)]⟩ : ProvenanceMap Nat) 8 5) x =
            some 5) :=
  ⟨⟨by decide, by decide⟩,
    c7_insert_get_roundtrip ⟨8, true⟩ (⟨[(20, 1)], [(3, 2)]⟩ : ProvenanceMap Nat) 8 5
      (by decide) (by decide)⟩

/-! ## Claim C3 (non-splittable clear rejection) -/

theorem slice_sorted {Prov : Type} {cfg : Config} {m : ProvenanceMap Prov} {r : AllocRange}
    (hsort : PtrGap 1 m.ptrs) : PtrGap 1 (ProvenanceMap.range_get_ptrs cfg m r) := by
  rw [ProvenanceMap.range_get_ptrs, SortedMap.range]
  exact List.Pairwise.sublist (List.filter_sublist _) hsort

/-- C3: for a non-splittable provenance kind, `clear` fails with a
partial-pointer-overwrite error carrying the starting offset of an
offending entry exactly when some pointer-sized entry overlapping the
range (in the backward-adjusted sense of `range_get_ptrs`) starts before
`range.start` or ends after `range.end`; and whenever it fails, the map is
unchanged.  The claim's concrete instance (entry spanning `[0, 8)`, clearing
`[2, 10)`, error at offset 0) is the witness below. -/
theorem c3_clear_nonsplittable_error {Prov : Type} (cfg : Config) (m : ProvenanceMap Prov)
    (r : AllocRange) (haddr : cfg.offset_is_addr = false) (hsort : PtrGap 1 m.ptrs) :
    ((∃ o, (ProvenanceMap.clear cfg m r).1 =
        Except.error (AllocError.partialPointerOverwrite o)) ↔
      ∃ e ∈ ProvenanceMap.range_get_ptrs cfg m r,
        e.1 < r.start ∨ r.stop < e.1 + cfg.pointer_size) ∧
    (∀ o, (ProvenanceMap.clear cfg m r).1 =
        Except.error (AllocError.partialPointerOverwrite o) →
      (∃ v, (o, v) ∈ ProvenanceMap.range_get_ptrs cfg m r ∧
        (o < r.start ∨ r.stop < o + cfg.pointer_size)) ∧
      (ProvenanceMap.clear cfg m r).2 = m) := by
  have hc : ProvenanceMap.clear cfg m r =
      ProvenanceMap.clear_core cfg m.ptrs m.bytes r (ProvenanceMap.range_get_ptrs cfg m r) := by
    rw [ProvenanceMap.clear, haddr]
    simp
  rcases hslice : ProvenanceMap.range_get_ptrs cfg m r with _ | ⟨pf, rest⟩
  · rw [hslice] at hc
    rw [ProvenanceMap.clear_core] at hc
    constructor
    · constructor
      · rintro ⟨o, ho⟩
        rw [hc] at ho
        simp at ho
      · rintro ⟨e, he, _⟩
        simp at he
    · intro o ho
      rw [hc] at ho
      simp at ho
  · have hss : PtrGap 1 (pf :: rest) := hslice ▸ slice_sorted hsort
    have hmin : ∀ e ∈ pf :: rest, pf.1 ≤ e.1 := fun e he => head_key_le hss rfl he
    have hmax : ∀ e ∈ pf :: rest,
        e.1 ≤ (List.getLast (pf :: rest) (List.cons_ne_nil pf rest)).1 :=
      fun e he =>
        le_getLast_key hss (List.getLast?_eq_getLast (pf :: rest) (List.cons_ne_nil pf rest)) he
    rw [hslice] at hc
    rw [ProvenanceMap.clear_core] at hc
    simp only [haddr, and_true] at hc
    set pl := List.getLast (pf :: rest) (List.cons_ne_nil pf rest) with hpl
    have hpl_mem : pl ∈ pf :: rest := List.getLast_mem (List.cons_ne_nil pf rest)
    by_cases h1 : pf.1 < r.start
    · rw [if_pos h1] at hc
      constructor
      · constructor
        · intro _
          exact ⟨pf, List.mem_cons_self pf rest, Or.inl h1⟩
        · intro _
          exact ⟨pf.1, by rw [hc]⟩
      · intro o ho
        rw [hc] at ho
        simp only [Except.error.injEq, AllocError.partialPointerOverwrite.injEq] at ho
        subst ho
        exact ⟨⟨pf.2, List.mem_cons_self pf rest, Or.inl h1⟩, by rw [hc]⟩
    · rw [if_neg h1, if_neg h1] at hc
      by_cases h2 : pl.1 + cfg.pointer_size > r.stop
      · rw [if_pos h2] at hc
        constructor
        · constructor
          · intro _
            exact ⟨pl, hpl_mem, Or.inr h2⟩
          · intro _
            exact ⟨pl.1, by rw [hc]⟩
        · intro o ho
          rw [hc] at ho
          simp only [Except.error.injEq, AllocError.partialPointerOverwrite.injEq] at ho
          subst ho
          exact ⟨⟨pl.2, hpl_mem, Or.inr h2⟩, by rw [hc]⟩
      · rw [if_neg h2, if_neg h2] at hc
        constructor
        · constructor
          · rintro ⟨o, ho⟩
            rw [hc] at ho
            simp at ho
          · rintro ⟨e, he, hor⟩
            rcases hor with hlt | hgt
            · exact absurd hlt (by have := hmin e he; omega)
            · have h3 := hmax e he
              exact absurd hgt (by omega)
        · intro o ho
          rw [hc] at ho
          simp at ho

/-- C3, witness: the claim's own instance — non-splittable, pointer-sized
entry spanning `[0, 8)`, clearing `[2, 10)` errors at offset 0 with the map
unchanged. -/
theorem c3_witness :
    (((⟨8, false⟩ : Config).offset_is_addr = false ∧
        PtrGap 1 (⟨[(0, 7)], []⟩ : ProvenanceMap Nat).ptrs) ∧
      (ProvenanceMap.clear ⟨8, false⟩ (⟨[(0, 7)], []⟩ : ProvenanceMap Nat) ⟨2, 8⟩).1 =
        Except.error (AllocError.partialPointerOverwrite 0)) ∧
    ((∃ o, (ProvenanceMap.clear ⟨8, false⟩ (⟨[(0, 7)], []⟩ : ProvenanceMap Nat) ⟨2, 8⟩).1 =
        Except.error (AllocError.partialPointerOverwrite o)) ↔
      ∃ e ∈ ProvenanceMap.range_get_ptrs ⟨8, false⟩ (⟨[(0, 7)], []⟩ : ProvenanceMap Nat)
          ⟨2, 8⟩,
        e.1 < 2 ∨ (AllocRange.mk 2 8).stop < e.1 + 8) ∧
    (∀ o, (ProvenanceMap.clear ⟨8, false⟩ (⟨[(0, 7)], []⟩ : ProvenanceMap Nat) ⟨2, 8⟩).1 =
        Except.error (AllocError.partialPointerOverwrite o) →
      (∃ v, (o, v) ∈ ProvenanceMap.range_get_ptrs ⟨8, false⟩
          (⟨[(0, 7)], []⟩ : ProvenanceMap Nat) ⟨2, 8⟩ ∧
        (o < 2 ∨ (AllocRange.mk 2 8).stop < o + 8)) ∧
      (ProvenanceMap.clear ⟨8, false⟩ (⟨[(0, 7)], []⟩ : ProvenanceMap Nat) ⟨2, 8⟩).2 =
        (⟨[(0, 7)], []⟩ : ProvenanceMap Nat)) :=
  ⟨⟨⟨rfl, by decide⟩, by decide⟩,
    c3_clear_nonsplittable_error ⟨8, false⟩ (⟨[(0, 7)], []⟩ : ProvenanceMap Nat) ⟨2, 8⟩
      rfl (by decide)⟩

/-! ## Reduction lemmas for `clear` -/

theorem clear_nonaddr_eq {Prov : Type} (cfg : Config) (m : ProvenanceMap Prov)
    (r : AllocRange) (haddr : cfg.offset_is_addr = false) :
    ProvenanceMap.clear cfg m r =
      ProvenanceMap.clear_core cfg m.ptrs m.bytes r (ProvenanceMap.range_get_ptrs cfg m r) := by
  rw [ProvenanceMap.clear, haddr]
  simp

theorem clear_addr_eq {Prov : Type} (cfg : Config) (m : ProvenanceMap Prov)
    (r : AllocRange) (haddr : cfg.offset_is_addr = true) :
    ProvenanceMap.clear cfg m r =
      ProvenanceMap.clear_core cfg m.ptrs
        (SortedMap.remove_range m.bytes r.start r.stop) r
        (ProvenanceMap.range_get_ptrs cfg m r) := by
  rw [ProvenanceMap.clear, haddr]
  simp

theorem clear_empty_slice {Prov : Type} (cfg : Config) (m : ProvenanceMap Prov)
    (r : AllocRange) (hnil : ProvenanceMap.range_get_ptrs cfg m r = [])
    (hbytes : ∀ e ∈ m.bytes, ¬(r.start ≤ e.1 ∧ e.1 < r.stop)) :
    ProvenanceMap.clear cfg m r = (Except.ok (), m) := by
  by_cases haddr : cfg.offset_is_addr = true
  · rw [clear_addr_eq cfg m r haddr, hnil, SortedMap.remove_range_eq_self hbytes,
      ProvenanceMap.clear_core]
  · have haddr2 : cfg.offset_is_addr = false := by
      revert haddr
      cases cfg.offset_is_addr <;> simp
    rw [clear_nonaddr_eq cfg m r haddr2, hnil, ProvenanceMap.clear_core]

theorem clear_singleton_nonaddr_error {Prov : Type} (cfg : Config) (m : ProvenanceMap Prov)
    (r : AllocRange) (o : Nat) (p : Prov) (haddr : cfg.offset_is_addr = false)
    (hsing : ProvenanceMap.range_get_ptrs cfg m r = [(o, p)]) (hX : o < r.start) :
    ProvenanceMap.clear cfg m r =
      (Except.error (AllocError.partialPointerOverwrite o), m) := by
  rw [clear_nonaddr_eq cfg m r haddr, hsing]
  simp only [ProvenanceMap.clear_core, List.getLast_singleton]
  rw [if_pos ⟨hX, haddr⟩]

theorem clear_singleton_addr {Prov : Type} (cfg : Config) (m : ProvenanceMap Prov)
    (r : AllocRange) (o : Nat) (p : Prov) (haddr : cfg.offset_is_addr = true)
    (hsing : ProvenanceMap.range_get_ptrs cfg m r = [(o, p)]) (h1 : o < r.start)
    (h2 : o + cfg.pointer_size > r.stop) :
    ProvenanceMap.clear cfg m r =
      (Except.ok (),
        ⟨SortedMap.remove_range m.ptrs o (o + cfg.pointer_size),
          ProvenanceMap.insert_loop
            (ProvenanceMap.insert_loop
              (SortedMap.remove_range m.bytes r.start r.stop) o r.start p)
            r.stop (o + cfg.pointer_size) p⟩) := by
  rw [clear_addr_eq cfg m r haddr, hsing]
  simp only [ProvenanceMap.clear_core, List.getLast_singleton]
  rw [if_neg (fun hcc => absurd (haddr ▸ hcc.2) (by decide))]
  rw [if_neg (fun hcc => absurd (haddr ▸ hcc.2) (by decide))]
  rw [if_pos h2, if_pos h1]

/-! ## Claim C9 (zero-length clear) -/

/-- C9: clearing the zero-length range `[X, X)` is not a no-op.  If some
pointer-sized entry starts in `[X - (pointer_size - 1), X)` (its span
crosses the boundary just before `X`), then for non-splittable provenance
`clear` fails with a partial-pointer-overwrite error at that entry and
leaves the map unchanged, while for splittable provenance it removes the
entry and covers its whole span with byte-wise entries of the same
provenance; if no such entry exists the map is returned unchanged. -/
theorem c9_zero_length_clear {Prov : Type} (cfg : Config) (m : ProvenanceMap Prov) (X : Nat)
    (hps : 1 ≤ cfg.pointer_size) (hgap : PtrGap cfg.pointer_size m.ptrs) :
    (∀ (o : Nat) (p : Prov), (o, p) ∈ m.ptrs → X - (cfg.pointer_size - 1) ≤ o → o < X →
      (cfg.offset_is_addr = false →
        ProvenanceMap.clear cfg m ⟨X, 0⟩ =
          (Except.error (AllocError.partialPointerOverwrite o), m)) ∧
      (cfg.offset_is_addr = true →
        (ProvenanceMap.clear cfg m ⟨X, 0⟩).1 = Except.ok () ∧
        (∀ e : Nat × Prov, e ∈ (ProvenanceMap.clear cfg m ⟨X, 0⟩).2.ptrs ↔
          e ∈ m.ptrs ∧ e.1 ≠ o) ∧
        (∀ k : Nat, o ≤ k → k < o + cfg.pointer_size →
          SortedMap.get (ProvenanceMap.clear cfg m ⟨X, 0⟩).2.bytes k = some p))) ∧
    ((∀ e ∈ m.ptrs, ¬(X - (cfg.pointer_size - 1) ≤ e.1 ∧ e.1 < X)) →
      ProvenanceMap.clear cfg m ⟨X, 0⟩ = (Except.ok (), m)) := by
  constructor
  · intro o p hmem hlo hX
    have hall : ∀ e ∈ ProvenanceMap.range_get_ptrs cfg m ⟨X, 0⟩, e = (o, p) := by
      intro e he
      rcases mem_range_get_ptrs.mp he with ⟨hm, hlo2, hhi2⟩
      have hlo3 : X - (cfg.pointer_size - 1) ≤ e.1 := hlo2
      have hhi3 : e.1 < X + 0 := hhi2
      rcases gap_pair_rel hgap hm hmem with h | h | h
      · exact h
      · omega
      · omega
    have hne : ProvenanceMap.range_get_ptrs cfg m ⟨X, 0⟩ ≠ [] := by
      intro hnil
      have hm : (o, p) ∈ ProvenanceMap.range_get_ptrs cfg m ⟨X, 0⟩ := by
        refine mem_range_get_ptrs.mpr ⟨hmem, ?_, ?_⟩
        · exact (by omega : X - (cfg.pointer_size - 1) ≤ o)
        · exact (by omega : o < X + 0)
      rw [hnil] at hm
      simp at hm
    have hsing : ProvenanceMap.range_get_ptrs cfg m ⟨X, 0⟩ = [(o, p)] :=
      all_eq_singleton hne hall (slice_sorted (gap_mono hps hgap))
    constructor
    · intro haddr
      exact clear_singleton_nonaddr_error cfg m ⟨X, 0⟩ o p haddr hsing hX
    · intro haddr
      have hc := clear_singleton_addr cfg m ⟨X, 0⟩ o p haddr hsing hX
        (show o + cfg.pointer_size > (AllocRange.mk X 0).stop from by
          show o + cfg.pointer_size > X + 0
          omega)
      have hstart : (AllocRange.mk X 0).start = X := rfl
      have hstop : (AllocRange.mk X 0).stop = X + 0 := rfl
      rw [hstart, hstop] at hc
      refine ⟨by rw [hc], ?_, ?_⟩
      · intro e
        simp only [hc]
        rw [SortedMap.mem_remove_range]
        constructor
        · rintro ⟨hm, hnc⟩
          refine ⟨hm, ?_⟩
          intro heq
          exact hnc ⟨by omega, by omega⟩
        · rintro ⟨hm, hne2⟩
          refine ⟨hm, ?_⟩
          intro hcc
          rcases gap_pair_rel hgap hm hmem with h | h | h
          · exact hne2 (congrArg Prod.fst h)
          · omega
          · omega
      · intro k hk1 hk2
        simp only [hc]
        rw [get_insert_loop, get_insert_loop]
        by_cases hkX : X + 0 ≤ k
        · rw [if_pos ⟨hkX, hk2⟩]
        · rw [if_neg (fun hcc => hkX hcc.1), if_pos ⟨hk1, by omega⟩]
  · intro hnone
    have hnil : ProvenanceMap.range_get_ptrs cfg m ⟨X, 0⟩ = [] := by
      rw [ProvenanceMap.range_get_ptrs]
      apply SortedMap.range_eq_nil
      intro e he
      have := hnone e he
      show ¬(X - (cfg.pointer_size - 1) ≤ e.1 ∧ e.1 < X + 0)
      omega
    refine clear_empty_slice cfg m ⟨X, 0⟩ hnil ?_
    intro e _
    show ¬(X ≤ e.1 ∧ e.1 < X + 0)
    omega

/-- C9, witness: a concrete splittable and a concrete non-splittable case of
the theorem, at pointer width 8, entry at offset 2, probed at `X = 6`. -/
theorem c9_witness :
    ((1 : Nat) ≤ 8 ∧ PtrGap 8 (⟨[(2, 9)], []⟩ : ProvenanceMap Nat).ptrs) ∧
      (ProvenanceMap.clear ⟨8, false⟩ (⟨[(2, 9)], []⟩ : ProvenanceMap Nat) ⟨6, 0⟩ =
          (Except.error (AllocError.partialPointerOverwrite 2),
            (⟨[(2, 9)], []⟩ : ProvenanceMap Nat)) ∧
        (ProvenanceMap.clear ⟨8, true⟩ (⟨[(2, 9)], []⟩ : ProvenanceMap Nat) ⟨6, 0⟩).1 =
          Except.ok () ∧
        ProvenanceMap.clear ⟨8, true⟩ (⟨[(20, 9)], []⟩ : ProvenanceMap Nat) ⟨6, 0⟩ =
          (Except.ok (), (⟨[(20, 9)], []⟩ : ProvenanceMap Nat))) :=
  ⟨⟨by decide, by decide⟩,
    ((c9_zero_length_clear ⟨8, false⟩ (⟨[(2, 9)], []⟩ : ProvenanceMap Nat) 6 (by decide)
        (by decide)).1 2 9 (by decide) (by decide) (by decide)).1 rfl,
    ((c9_zero_length_clear ⟨8, true⟩ (⟨[(2, 9)], []⟩ : ProvenanceMap Nat) 6 (by decide)
        (by decide)).1 2 9 (by decide) (by decide) (by decide)).2 rfl |>.1,
    (c9_zero_length_clear ⟨8, true⟩ (⟨[(20, 9)], []⟩ : ProvenanceMap Nat) 6 (by decide)
        (by decide)).2 (by decide)⟩

/-! ## General cons-slice reduction lemmas for `clear` -/

theorem clear_cons_nonaddr_error_first {Prov : Type} (cfg : Config) (m : ProvenanceMap Prov)
    (r : AllocRange) (pf : Nat × Prov) (rest : List (Nat × Prov))
    (haddr : cfg.offset_is_addr = false)
    (hslice : ProvenanceMap.range_get_ptrs cfg m r = pf :: rest) (h1 : pf.1 < r.start) :
    ProvenanceMap.clear cfg m r =
      (Except.error (AllocError.partialPointerOverwrite pf.1), m) := by
  rw [clear_nonaddr_eq cfg m r haddr, hslice]
  simp only [ProvenanceMap.clear_core]
  rw [if_pos ⟨h1, haddr⟩]

theorem clear_cons_nonaddr_error_last {Prov : Type} (cfg : Config) (m : ProvenanceMap Prov)
    (r : AllocRange) (pf : Nat × Prov) (rest : List (Nat × Prov))
    (haddr : cfg.offset_is_addr = false)
    (hslice : ProvenanceMap.range_get_ptrs cfg m r = pf :: rest) (h1 : ¬ pf.1 < r.start)
    (h2 : (List.getLast (pf :: rest) (List.cons_ne_nil pf rest)).1 + cfg.pointer_size >
      r.stop) :
    ProvenanceMap.clear cfg m r =
      (Except.error (AllocError.partialPointerOverwrite
        (List.getLast (pf :: rest) (List.cons_ne_nil pf rest)).1), m) := by
  rw [clear_nonaddr_eq cfg m r haddr, hslice]
  simp only [ProvenanceMap.clear_core]
  rw [if_neg (fun hcc => h1 hcc.1), if_neg h1, if_pos ⟨h2, haddr⟩]

theorem clear_cons_nonaddr_ok {Prov : Type} (cfg : Config) (m : ProvenanceMap Prov)
    (r : AllocRange) (pf : Nat × Prov) (rest : List (Nat × Prov))
    (haddr : cfg.offset_is_addr = false)
    (hslice : ProvenanceMap.range_get_ptrs cfg m r = pf :: rest) (h1 : ¬ pf.1 < r.start)
    (h2 : ¬ (List.getLast (pf :: rest) (List.cons_ne_nil pf rest)).1 + cfg.pointer_size >
      r.stop) :
    ProvenanceMap.clear cfg m r =
      (Except.ok (),
        ⟨SortedMap.remove_range m.ptrs pf.1
            ((List.getLast (pf :: rest) (List.cons_ne_nil pf rest)).1 + cfg.pointer_size),
          m.bytes⟩) := by
  rw [clear_nonaddr_eq cfg m r haddr, hslice]
  simp only [ProvenanceMap.clear_core]
  rw [if_neg (fun hcc => h1 hcc.1), if_neg h1, if_neg (fun hcc => h2 hcc.1), if_neg h2]

theorem clear_cons_addr {Prov : Type} (cfg : Config) (m : ProvenanceMap Prov)
    (r : AllocRange) (pf : Nat × Prov) (rest : List (Nat × Prov))
    (haddr : cfg.offset_is_addr = true)
    (hslice : ProvenanceMap.range_get_ptrs cfg m r = pf :: rest) :
    ProvenanceMap.clear cfg m r =
      (Except.ok (),
        ⟨SortedMap.remove_range m.ptrs pf.1
            ((List.getLast (pf :: rest) (List.cons_ne_nil pf rest)).1 + cfg.pointer_size),
          if (List.getLast (pf :: rest) (List.cons_ne_nil pf rest)).1 + cfg.pointer_size >
              r.stop then
            ProvenanceMap.insert_loop
              (if pf.1 < r.start then
                ProvenanceMap.insert_loop (SortedMap.remove_range m.bytes r.start r.stop)
                  pf.1 r.start pf.2
               else SortedMap.remove_range m.bytes r.start r.stop)
              r.stop
              ((List.getLast (pf :: rest) (List.cons_ne_nil pf rest)).1 + cfg.pointer_size)
              (List.getLast (pf :: rest) (List.cons_ne_nil pf rest)).2
          else
            (if pf.1 < r.start then
              ProvenanceMap.insert_loop (SortedMap.remove_range m.bytes r.start r.stop)
                pf.1 r.start pf.2
             else SortedMap.remove_range m.bytes r.start r.stop)⟩) := by
  rw [clear_addr_eq cfg m r haddr, hslice]
  simp only [ProvenanceMap.clear_core]
  rw [if_neg (fun hcc => absurd (haddr ▸ hcc.2) (by decide))]
  rw [if_neg (fun hcc => absurd (haddr ▸ hcc.2) (by decide))]

/-- After removing `[pf.1, pl.1 + pointer_size)` from `ptrs`, no pointer
entry overlaps the cleared range any more. -/
theorem cleared_slice_empty {Prov : Type} {cfg : Config} {m : ProvenanceMap Prov}
    {r : AllocRange} {pf : Nat × Prov} {rest : List (Nat × Prov)}
    (hps : 1 ≤ cfg.pointer_size) (hsort : PtrGap 1 m.ptrs)
    (hslice : ProvenanceMap.range_get_ptrs cfg m r = pf :: rest)
    (bytes2 : SortedMap Prov) :
    ProvenanceMap.range_get_ptrs cfg
      (⟨SortedMap.remove_range m.ptrs pf.1
          ((List.getLast (pf :: rest) (List.cons_ne_nil pf rest)).1 + cfg.pointer_size),
        bytes2⟩ : ProvenanceMap Prov) r = [] := by
  have hss : PtrGap 1 (pf :: rest) := hslice ▸ slice_sorted hsort
  have hmin : ∀ e ∈ pf :: rest, pf.1 ≤ e.1 := fun e he => head_key_le hss rfl he
  have hmax : ∀ e ∈ pf :: rest,
      e.1 ≤ (List.getLast (pf :: rest) (List.cons_ne_nil pf rest)).1 :=
    fun e he =>
      le_getLast_key hss (List.getLast?_eq_getLast (pf :: rest) (List.cons_ne_nil pf rest)) he
  show SortedMap.range
      (SortedMap.remove_range m.ptrs pf.1
        ((List.getLast (pf :: rest) (List.cons_ne_nil pf rest)).1 + cfg.pointer_size))
      (r.start - (cfg.pointer_size - 1)) r.stop = []
  apply SortedMap.range_eq_nil
  intro e he hwin
  rcases SortedMap.mem_remove_range.mp he with ⟨hm, hnr⟩
  have hesl : e ∈ pf :: rest := by
    rw [← hslice]
    exact mem_range_get_ptrs.mpr ⟨hm, hwin⟩
  have h3 := hmin e hesl
  have h4 := hmax e hesl
  exact hnr ⟨h3, by omega⟩

/-! ## Claim C8 (clear idempotence) -/

/-- C8: clearing the same range twice produces the same outcome and map as
clearing it once; after a successful `clear(range)`, `range_empty(range)`
holds; and whenever `clear` returns a partial-overwrite error the map is
unchanged.  For non-splittable provenance the documented invariant that
`bytes` is empty is assumed. -/
theorem c8_clear_idempotent {Prov : Type} (cfg : Config) (m : ProvenanceMap Prov)
    (r : AllocRange) (hps : 1 ≤ cfg.pointer_size) (hsort : PtrGap 1 m.ptrs)
    (hinv : cfg.offset_is_addr = false → m.bytes = []) :
    ProvenanceMap.clear cfg (ProvenanceMap.clear cfg m r).2 r =
        ProvenanceMap.clear cfg m r ∧
      ((ProvenanceMap.clear cfg m r).1 = Except.ok () →
        ProvenanceMap.range_empty cfg (ProvenanceMap.clear cfg m r).2 r = true) ∧
      (∀ err : AllocError, (ProvenanceMap.clear cfg m r).1 = Except.error err →
        (ProvenanceMap.clear cfg m r).2 = m) := by
  rcases hslice : ProvenanceMap.range_get_ptrs cfg m r with _ | ⟨pf, rest⟩
  · -- no overlapping pointer entry
    by_cases haddr : cfg.offset_is_addr = true
    · have hc : ProvenanceMap.clear cfg m r =
          (Except.ok (),
            ⟨m.ptrs, SortedMap.remove_range m.bytes r.start r.stop⟩) := by
        rw [clear_addr_eq cfg m r haddr, hslice, ProvenanceMap.clear_core]
      have hb2 : ∀ e ∈ SortedMap.remove_range m.bytes r.start r.stop,
          ¬(r.start ≤ e.1 ∧ e.1 < r.stop) :=
        fun e he => (SortedMap.mem_remove_range.mp he).2
      refine ⟨?_, ?_, ?_⟩
      · have h2 : (ProvenanceMap.clear cfg m r).2 =
            ⟨m.ptrs, SortedMap.remove_range m.bytes r.start r.stop⟩ := by rw [hc]
        rw [h2, hc]
        refine clear_empty_slice cfg _ r ?_ hb2
        show ProvenanceMap.range_get_ptrs cfg m r = []
        exact hslice
      · intro _
        refine range_empty_iff.mpr ⟨?_, ?_⟩
        · rw [hc]
          show ProvenanceMap.range_get_ptrs cfg m r = []
          exact hslice
        · rw [hc]
          exact SortedMap.range_eq_nil hb2
      · intro err herr
        rw [hc] at herr
        simp at herr
    · have haddr2 : cfg.offset_is_addr = false := by
        revert haddr
        cases cfg.offset_is_addr <;> simp
      have hc : ProvenanceMap.clear cfg m r = (Except.ok (), m) := by
        rw [clear_nonaddr_eq cfg m r haddr2, hslice, ProvenanceMap.clear_core]
      refine ⟨?_, ?_, ?_⟩
      · rw [hc]
        exact hc
      · intro _
        refine range_empty_iff.mpr ⟨?_, ?_⟩
        · rw [hc]
          exact hslice
        · rw [hc, ProvenanceMap.range_get_bytes, hinv haddr2]
          rfl
      · intro err herr
        rw [hc] at herr
        simp at herr
  · -- at least one overlapping pointer entry
    have hss : PtrGap 1 (pf :: rest) := hslice ▸ slice_sorted hsort
    set pl := List.getLast (pf :: rest) (List.cons_ne_nil pf rest) with hpl
    by_cases haddr : cfg.offset_is_addr = true
    · have hc := clear_cons_addr cfg m r pf rest haddr hslice
      rw [← hpl] at hc
      have hbytesout : ∀ e ∈ (ProvenanceMap.clear cfg m r).2.bytes,
          ¬(r.start ≤ e.1 ∧ e.1 < r.stop) := by
        intro e he
        rw [hc] at he
        by_cases h2 : pl.1 + cfg.pointer_size > r.stop
        · rw [if_pos h2] at he
          rcases mem_insert_loop he with h | h
          · omega
          · by_cases h1 : pf.1 < r.start
            · rw [if_pos h1] at h
              rcases mem_insert_loop h with h3 | h3
              · omega
              · exact (SortedMap.mem_remove_range.mp h3).2
            · rw [if_neg h1] at h
              exact (SortedMap.mem_remove_range.mp h).2
        · rw [if_neg h2] at he
          by_cases h1 : pf.1 < r.start
          · rw [if_pos h1] at he
            rcases mem_insert_loop he with h3 | h3
            · omega
            · exact (SortedMap.mem_remove_range.mp h3).2
          · rw [if_neg h1] at he
            exact (SortedMap.mem_remove_range.mp he).2
      have hptrnil : ProvenanceMap.range_get_ptrs cfg (ProvenanceMap.clear cfg m r).2 r =
          [] := by
        rw [hc]
        exact cleared_slice_empty hps hsort hslice _
      refine ⟨?_, ?_, ?_⟩
      · rw [clear_empty_slice cfg _ r hptrnil hbytesout, hc]
      · intro _
        refine range_empty_iff.mpr ⟨hptrnil, SortedMap.range_eq_nil hbytesout⟩
      · intro err herr
        rw [hc] at herr
        simp at herr
    · have haddr2 : cfg.offset_is_addr = false := by
        revert haddr
        cases cfg.offset_is_addr <;> simp
      by_cases h1 : pf.1 < r.start
      · have hc := clear_cons_nonaddr_error_first cfg m r pf rest haddr2 hslice h1
        refine ⟨?_, ?_, ?_⟩
        · have h2 : (ProvenanceMap.clear cfg m r).2 = m := by rw [hc]
          rw [h2]
        · intro hok
          rw [hc] at hok
          simp at hok
        · intro err _
          rw [hc]
      · by_cases h2 : pl.1 + cfg.pointer_size > r.stop
        · have hc := clear_cons_nonaddr_error_last cfg m r pf rest haddr2 hslice h1
            (by rw [← hpl]; exact h2)
          refine ⟨?_, ?_, ?_⟩
          · have h3 : (ProvenanceMap.clear cfg m r).2 = m := by rw [hc]
            rw [h3]
          · intro hok
            rw [hc] at hok
            simp at hok
          · intro err _
            rw [hc]
        · have hc := clear_cons_nonaddr_ok cfg m r pf rest haddr2 hslice h1
            (by rw [← hpl]; exact h2)
          rw [← hpl] at hc
          have hptrnil : ProvenanceMap.range_get_ptrs cfg
              (ProvenanceMap.clear cfg m r).2 r = [] := by
            rw [hc]
            exact cleared_slice_empty hps hsort hslice _
          have hbytesout : ∀ e ∈ (ProvenanceMap.clear cfg m r).2.bytes,
              ¬(r.start ≤ e.1 ∧ e.1 < r.stop) := by
            intro e he
            rw [hc] at he
            have he2 : e ∈ m.bytes := he
            rw [hinv haddr2] at he2
            simp at he2
          refine ⟨?_, ?_, ?_⟩
          · rw [clear_empty_slice cfg _ r hptrnil hbytesout, hc]
          · intro _
            refine range_empty_iff.mpr ⟨hptrnil, SortedMap.range_eq_nil hbytesout⟩
          · intro err herr
            rw [hc] at herr
            simp at herr

/-- C8, witness: splittable map with one entry straddling the cleared
range. -/
theorem c8_witness :
    ((1 : Nat) ≤ 8 ∧ PtrGap 1 (⟨[(4, 6)], []⟩ : ProvenanceMap Nat).ptrs ∧
        ((⟨8, true⟩ : Config).offset_is_addr = false →
          (⟨[(4, 6)], []⟩ : ProvenanceMap Nat).bytes = [])) ∧
      (ProvenanceMap.clear ⟨8, true⟩
            (ProvenanceMap.clear ⟨8, true⟩ (⟨[(4, 6)], []⟩ : ProvenanceMap Nat) ⟨6, 4⟩).2
            ⟨6, 4⟩ =
          ProvenanceMap.clear ⟨8, true⟩ (⟨[(4, 6)], []⟩ : ProvenanceMap Nat) ⟨6, 4⟩ ∧
        ((ProvenanceMap.clear ⟨8, true⟩ (⟨[(4, 6)], []⟩ : ProvenanceMap Nat) ⟨6, 4⟩).1 =
            Except.ok () →
          ProvenanceMap.range_empty ⟨8, true⟩
            (ProvenanceMap.clear ⟨8, true⟩ (⟨[(4, 6)], []⟩ : ProvenanceMap Nat) ⟨6, 4⟩).2
            ⟨6, 4⟩ = true) ∧
        (∀ err : AllocError,
          (ProvenanceMap.clear ⟨8, true⟩ (⟨[(4, 6)], []⟩ : ProvenanceMap Nat) ⟨6, 4⟩).1 =
            Except.error err →
          (ProvenanceMap.clear ⟨8, true⟩ (⟨[(4, 6)], []⟩ : ProvenanceMap Nat) ⟨6, 4⟩).2 =
            (⟨[(4, 6)], []⟩ : ProvenanceMap Nat))) :=
  ⟨⟨by decide, by decide, by decide⟩,
    c8_clear_idempotent ⟨8, true⟩ (⟨[(4, 6)], []⟩ : ProvenanceMap Nat) ⟨6, 4⟩ (by decide)
      (by decide) (by decide)⟩

/-! ## Reduction lemmas for the copy planner -/

theorem if_bool_false {α : Sort _} {b : Bool} (h : b = false) (x y : α) :
    (if b = true then x else y) = y := by
  rw [h]
  simp

theorem if_bool_true {α : Sort _} {b : Bool} (h : b = true) (x y : α) :
    (if b = true then x else y) = x := by
  rw [h]
  simp

theorem head?_mem {α : Type} {l : List α} {a : α} (h : l.head? = some a) : a ∈ l := by
  cases l with
  | nil => simp at h
  | cons b t =>
    have hab : a = b := by simpa using h.symm
    rw [hab]
    exact List.mem_cons_self b t

/-- Membership in a zero-length boundary probe is exactly straddling the
probe point. -/
theorem zero_probe_mem {Prov : Type} {cfg : Config} {m : ProvenanceMap Prov} {X : Nat}
    (hps : 1 ≤ cfg.pointer_size) {e : Nat × Prov} :
    e ∈ ProvenanceMap.range_get_ptrs cfg m ⟨X, 0⟩ ↔
      e ∈ m.ptrs ∧ (e.1 < X ∧ X < e.1 + cfg.pointer_size) := by
  rw [mem_range_get_ptrs]
  constructor
  · rintro ⟨hm, h1, h2⟩
    have h1b : X - (cfg.pointer_size - 1) ≤ e.1 := h1
    have h2b : e.1 < X + 0 := h2
    exact ⟨hm, by omega, by omega⟩
  · rintro ⟨hm, h1, h2⟩
    refine ⟨hm, ?_, ?_⟩
    · exact (by omega : X - (cfg.pointer_size - 1) ≤ e.1)
    · exact (by omega : e.1 < X + 0)

theorem copy_start_bytes_nil {Prov : Type} (cfg : Config) (m : ProvenanceMap Prov)
    (src : AllocRange)
    (h : (ProvenanceMap.range_get_ptrs cfg m ⟨src.start, 0⟩).head? = none) :
    ProvenanceMap.copy_start_bytes cfg m src = Except.ok [] := by
  rw [ProvenanceMap.copy_start_bytes, h]

theorem copy_start_bytes_err {Prov : Type} (cfg : Config) (m : ProvenanceMap Prov)
    (src : AllocRange) (entry : Nat × Prov) (haddr : cfg.offset_is_addr = false)
    (h : (ProvenanceMap.range_get_ptrs cfg m ⟨src.start, 0⟩).head? = some entry) :
    ProvenanceMap.copy_start_bytes cfg m src =
      Except.error (AllocError.partialPointerCopy entry.1) := by
  rw [ProvenanceMap.copy_start_bytes, h]
  simp only [if_pos haddr]

theorem copy_start_bytes_addr {Prov : Type} (cfg : Config) (m : ProvenanceMap Prov)
    (src : AllocRange) (entry : Nat × Prov) (haddr : cfg.offset_is_addr = true)
    (h : (ProvenanceMap.range_get_ptrs cfg m ⟨src.start, 0⟩).head? = some entry) :
    ProvenanceMap.copy_start_bytes cfg m src =
      Except.ok ((List.range' src.start
          (min (entry.1 + cfg.pointer_size) src.stop - src.start)).map
        (fun o => (o, entry.2))) := by
  rw [ProvenanceMap.copy_start_bytes, h]
  have hne : ¬ cfg.offset_is_addr = false := fun hcc => absurd (haddr ▸ hcc) (by decide)
  simp only [if_neg hne]

theorem copy_end_bytes_nil {Prov : Type} (cfg : Config) (m : ProvenanceMap Prov)
    (src : AllocRange) (bytes : List (Nat × Prov))
    (h : (ProvenanceMap.range_get_ptrs cfg m ⟨src.stop, 0⟩).head? = none) :
    ProvenanceMap.copy_end_bytes cfg m src bytes = Except.ok bytes := by
  rw [ProvenanceMap.copy_end_bytes, h]

theorem copy_end_bytes_err {Prov : Type} (cfg : Config) (m : ProvenanceMap Prov)
    (src : AllocRange) (bytes : List (Nat × Prov)) (entry : Nat × Prov)
    (haddr : cfg.offset_is_addr = false)
    (h : (ProvenanceMap.range_get_ptrs cfg m ⟨src.stop, 0⟩).head? = some entry) :
    ProvenanceMap.copy_end_bytes cfg m src bytes =
      Except.error (AllocError.partialPointerCopy entry.1) := by
  rw [ProvenanceMap.copy_end_bytes, h]
  simp only [if_pos haddr]

theorem copy_end_bytes_addr {Prov : Type} (cfg : Config) (m : ProvenanceMap Prov)
    (src : AllocRange) (bytes : List (Nat × Prov)) (entry : Nat × Prov)
    (haddr : cfg.offset_is_addr = true)
    (h : (ProvenanceMap.range_get_ptrs cfg m ⟨src.stop, 0⟩).head? = some entry) :
    ProvenanceMap.copy_end_bytes cfg m src bytes =
      Except.ok ((List.range' (max entry.1 src.start) (src.stop - max entry.1 src.start)).foldl
        (fun acc o =>
          match acc.getLast? with
          | none => acc ++ [(o, entry.2)]
          | some e => if e.1 < o then acc ++ [(o, entry.2)] else acc)
        bytes) := by
  rw [ProvenanceMap.copy_end_bytes, h]
  have hne : ¬ cfg.offset_is_addr = false := fun hcc => absurd (haddr ▸ hcc) (by decide)
  simp only [if_neg hne]

/-! ## Claim C4 (non-splittable copy rejection) -/

/-- C4: for non-splittable provenance, `prepare_copy` fails with a
partial-pointer-copy error exactly when a pointer-sized entry straddles
`src.start` or `src.end` (the condition detected by the two zero-length
boundary probes), and the error names the offset of such an entry.  In the
embedding `prepare_copy` is a pure function producing only a plan, so no
map is touched on failure; mutation happens only in the separate
`apply_copy` step. -/
theorem c4_prepare_copy_nonsplittable_error {Prov : Type} (cfg : Config)
    (m : ProvenanceMap Prov) (src : AllocRange) (dest count : Nat)
    (haddr : cfg.offset_is_addr = false) (hps : 1 ≤ cfg.pointer_size) :
    ((∃ o, ProvenanceMap.prepare_copy cfg m src dest count =
        Except.error (AllocError.partialPointerCopy o)) ↔
      ∃ e ∈ m.ptrs,
        (e.1 < src.start ∧ src.start < e.1 + cfg.pointer_size) ∨
        (e.1 < src.stop ∧ src.stop < e.1 + cfg.pointer_size)) ∧
    (∀ o, ProvenanceMap.prepare_copy cfg m src dest count =
        Except.error (AllocError.partialPointerCopy o) →
      ∃ v, (o, v) ∈ m.ptrs ∧
        ((o < src.start ∧ src.start < o + cfg.pointer_size) ∨
         (o < src.stop ∧ src.stop < o + cfg.pointer_size))) := by
  rcases hs : (ProvenanceMap.range_get_ptrs cfg m ⟨src.start, 0⟩).head? with _ | entryS
  · rcases he : (ProvenanceMap.range_get_ptrs cfg m ⟨src.stop, 0⟩).head? with _ | entryE
    · have hc : ProvenanceMap.prepare_copy cfg m src dest count =
          Except.ok
            ⟨ProvenanceMap.replicate_shifted src dest count
                (if src.size < cfg.pointer_size then []
                 else SortedMap.range m.ptrs src.start
                   (src.stop - (cfg.pointer_size - 1))),
              ProvenanceMap.replicate_shifted src dest count []⟩ := by
        rw [ProvenanceMap.prepare_copy, copy_start_bytes_nil cfg m src hs]
        simp only [if_bool_false haddr]
        rw [copy_end_bytes_nil cfg m src _ he]
      constructor
      · constructor
        · rintro ⟨o, ho⟩
          rw [hc] at ho
          simp at ho
        · rintro ⟨e, hm, hor⟩
          rcases hor with hstr | hstr
          · have hmm : e ∈ ProvenanceMap.range_get_ptrs cfg m ⟨src.start, 0⟩ :=
              (zero_probe_mem hps).mpr ⟨hm, hstr⟩
            rw [List.head?_eq_none_iff.mp hs] at hmm
            simp at hmm
          · have hmm : e ∈ ProvenanceMap.range_get_ptrs cfg m ⟨src.stop, 0⟩ :=
              (zero_probe_mem hps).mpr ⟨hm, hstr⟩
            rw [List.head?_eq_none_iff.mp he] at hmm
            simp at hmm
      · intro o ho
        rw [hc] at ho
        simp at ho
    · have hc : ProvenanceMap.prepare_copy cfg m src dest count =
          Except.error (AllocError.partialPointerCopy entryE.1) := by
        rw [ProvenanceMap.prepare_copy, copy_start_bytes_nil cfg m src hs]
        simp only [if_bool_false haddr]
        rw [copy_end_bytes_err cfg m src _ entryE haddr he]
      have hstr : entryE ∈ m.ptrs ∧
          (entryE.1 < src.stop ∧ src.stop < entryE.1 + cfg.pointer_size) :=
        (zero_probe_mem hps).mp (head?_mem he)
      constructor
      · constructor
        · intro _
          exact ⟨entryE, hstr.1, Or.inr hstr.2⟩
        · intro _
          exact ⟨entryE.1, hc⟩
      · intro o ho
        rw [hc] at ho
        simp only [Except.error.injEq, AllocError.partialPointerCopy.injEq] at ho
        subst ho
        exact ⟨entryE.2, hstr.1, Or.inr hstr.2⟩
  · have hc : ProvenanceMap.prepare_copy cfg m src dest count =
        Except.error (AllocError.partialPointerCopy entryS.1) := by
      rw [ProvenanceMap.prepare_copy, copy_start_bytes_err cfg m src entryS haddr hs]
    have hstr : entryS ∈ m.ptrs ∧
        (entryS.1 < src.start ∧ src.start < entryS.1 + cfg.pointer_size) :=
      (zero_probe_mem hps).mp (head?_mem hs)
    constructor
    · constructor
      · intro _
        exact ⟨entryS, hstr.1, Or.inl hstr.2⟩
      · intro _
        exact ⟨entryS.1, hc⟩
    · intro o ho
      rw [hc] at ho
      simp only [Except.error.injEq, AllocError.partialPointerCopy.injEq] at ho
      subst ho
      exact ⟨entryS.2, hstr.1, Or.inl hstr.2⟩

/-- C4, witness: non-splittable map with an entry spanning `[4, 12)` and a
copy source `[6, 16)` whose start edge cuts through it. -/
theorem c4_witness :
    ((⟨8, false⟩ : Config).offset_is_addr = false ∧ (1 : Nat) ≤ 8) ∧
      (((∃ o, ProvenanceMap.prepare_copy ⟨8, false⟩ (⟨[(4, 11)], []⟩ : ProvenanceMap Nat)
            ⟨6, 10⟩ 100 2 = Except.error (AllocError.partialPointerCopy o)) ↔
        ∃ e ∈ (⟨[(4, 11)], []⟩ : ProvenanceMap Nat).ptrs,
          (e.1 < 6 ∧ 6 < e.1 + 8) ∨
          (e.1 < (AllocRange.mk 6 10).stop ∧ (AllocRange.mk 6 10).stop < e.1 + 8)) ∧
      (∀ o, ProvenanceMap.prepare_copy ⟨8, false⟩ (⟨[(4, 11)], []⟩ : ProvenanceMap Nat)
          ⟨6, 10⟩ 100 2 = Except.error (AllocError.partialPointerCopy o) →
        ∃ v, (o, v) ∈ (⟨[(4, 11)], []⟩ : ProvenanceMap Nat).ptrs ∧
          ((o < 6 ∧ 6 < o + 8) ∨
           (o < (AllocRange.mk 6 10).stop ∧ (AllocRange.mk 6 10).stop < o + 8)))) :=
  ⟨⟨rfl, by decide⟩,
    c4_prepare_copy_nonsplittable_error ⟨8, false⟩ (⟨[(4, 11)], []⟩ : ProvenanceMap Nat)
      ⟨6, 10⟩ 100 2 rfl (by decide)⟩

/-! ## Claim C10 (frame property of splittable clear) -/

theorem cover_unique {Prov : Type} {ps : Nat} {l : List (Nat × Prov)} (hps : 1 ≤ ps)
    (hgap : PtrGap ps l) {a b : Nat × Prov} (ha : a ∈ l) (hb : b ∈ l) {o : Nat}
    (h1 : a.1 ≤ o) (h2 : o < a.1 + ps) (h3 : b.1 ≤ o) (h4 : o < b.1 + ps) : a = b := by
  rcases gap_pair_rel hgap ha hb with h | h | h
  · exact h
  · omega
  · omega

/-- Point lookups into the byte map produced by a splittable `clear` whose
overlap slice is `pf :: rest`: the downgraded suffix, then the downgraded
prefix, then the cleared window, then the untouched original bytes. -/
theorem clear_addr_get_bytes {Prov : Type} (cfg : Config) (m : ProvenanceMap Prov)
    (r : AllocRange) (pf : Nat × Prov) (rest : List (Nat × Prov))
    (haddr : cfg.offset_is_addr = true)
    (hslice : ProvenanceMap.range_get_ptrs cfg m r = pf :: rest) (x : Nat) :
    SortedMap.get (ProvenanceMap.clear cfg m r).2.bytes x =
      (if (List.getLast (pf :: rest) (List.cons_ne_nil pf rest)).1 + cfg.pointer_size >
            r.stop ∧ r.stop ≤ x ∧
            x < (List.getLast (pf :: rest) (List.cons_ne_nil pf rest)).1 +
              cfg.pointer_size then
        some (List.getLast (pf :: rest) (List.cons_ne_nil pf rest)).2
      else if pf.1 < r.start ∧ pf.1 ≤ x ∧ x < r.start then some pf.2
      else if r.start ≤ x ∧ x < r.stop then none
      else SortedMap.get m.bytes x) := by
  rw [clear_cons_addr cfg m r pf rest haddr hslice]
  set pl := List.getLast (pf :: rest) (List.cons_ne_nil pf rest) with hpldef
  dsimp only
  have hn2 : ¬(r.stop ≤ x ∧ x < pl.1 + cfg.pointer_size) →
      ¬(pl.1 + cfg.pointer_size > r.stop ∧ r.stop ≤ x ∧ x < pl.1 + cfg.pointer_size) :=
    fun h hcc => h ⟨hcc.2.1, hcc.2.2⟩
  have hn1 : ¬(pf.1 ≤ x ∧ x < r.start) →
      ¬(pf.1 < r.start ∧ pf.1 ≤ x ∧ x < r.start) :=
    fun h hcc => h ⟨hcc.2.1, hcc.2.2⟩
  have hn1c : ¬ pf.1 < r.start → ¬(pf.1 < r.start ∧ pf.1 ≤ x ∧ x < r.start) :=
    fun h hcc => h hcc.1
  have hn2c : ¬ pl.1 + cfg.pointer_size > r.stop →
      ¬(pl.1 + cfg.pointer_size > r.stop ∧ r.stop ≤ x ∧ x < pl.1 + cfg.pointer_size) :=
    fun h hcc => h hcc.1
  by_cases hc2 : pl.1 + cfg.pointer_size > r.stop
  · rw [if_pos hc2, get_insert_loop]
    by_cases hx2 : r.stop ≤ x ∧ x < pl.1 + cfg.pointer_size
    · rw [if_pos hx2, if_pos ⟨hc2, hx2.1, hx2.2⟩]
    · rw [if_neg hx2, if_neg (hn2 hx2)]
      by_cases hc1 : pf.1 < r.start
      · rw [if_pos hc1, get_insert_loop]
        by_cases hx1 : pf.1 ≤ x ∧ x < r.start
        · rw [if_pos hx1, if_pos ⟨hc1, hx1.1, hx1.2⟩]
        · rw [if_neg hx1, if_neg (hn1 hx1)]
          exact SortedMap.get_remove_range m.bytes r.start r.stop x
      · rw [if_neg hc1, if_neg (hn1c hc1)]
        exact SortedMap.get_remove_range m.bytes r.start r.stop x
  · rw [if_neg hc2, if_neg (hn2c hc2)]
    by_cases hc1 : pf.1 < r.start
    · rw [if_pos hc1, get_insert_loop]
      by_cases hx1 : pf.1 ≤ x ∧ x < r.start
      · rw [if_pos hx1, if_pos ⟨hc1, hx1.1, hx1.2⟩]
      · rw [if_neg hx1, if_neg (hn1 hx1)]
        exact SortedMap.get_remove_range m.bytes r.start r.stop x
    · rw [if_neg hc1, if_neg (hn1c hc1)]
      exact SortedMap.get_remove_range m.bytes r.start r.stop x

/-- C10: for splittable provenance, `clear` always succeeds and preserves
the observable provenance at every offset outside the cleared range:
partially overlapped pointer entries are downgraded to byte-wise entries
carrying the same provenance at exactly the out-of-range offsets they
covered. -/
theorem c10_clear_frame {Prov : Type} (cfg : Config) (m : ProvenanceMap Prov)
    (r : AllocRange) (o : Nat) (hps : 1 ≤ cfg.pointer_size)
    (haddr : cfg.offset_is_addr = true) (hgap : PtrGap cfg.pointer_size m.ptrs)
    (ho : o < r.start ∨ r.stop ≤ o) :
    (ProvenanceMap.clear cfg m r).1 = Except.ok () ∧
      ProvenanceMap.get cfg (ProvenanceMap.clear cfg m r).2 o =
        ProvenanceMap.get cfg m o := by
  have hsort : PtrGap 1 m.ptrs := gap_mono hps hgap
  have hrs : r.stop = r.start + r.size := rfl
  rcases hslice : ProvenanceMap.range_get_ptrs cfg m r with _ | ⟨pf, rest⟩
  · have hc : ProvenanceMap.clear cfg m r =
        (Except.ok (), ⟨m.ptrs, SortedMap.remove_range m.bytes r.start r.stop⟩) := by
      rw [clear_addr_eq cfg m r haddr, hslice, ProvenanceMap.clear_core]
    refine ⟨by rw [hc], ?_⟩
    rw [hc]
    rw [ProvenanceMap.get, ProvenanceMap.get]
    have hpr : ProvenanceMap.range_get_ptrs cfg
        (⟨m.ptrs, SortedMap.remove_range m.bytes r.start r.stop⟩ : ProvenanceMap Prov)
        ⟨o, 1⟩ = ProvenanceMap.range_get_ptrs cfg m ⟨o, 1⟩ := rfl
    rw [hpr]
    cases hh : (ProvenanceMap.range_get_ptrs cfg m ⟨o, 1⟩).head? with
    | some e => rfl
    | none =>
      show SortedMap.get (SortedMap.remove_range m.bytes r.start r.stop) o =
        SortedMap.get m.bytes o
      rw [SortedMap.get_remove_range, if_neg (by omega)]
  · have hss : PtrGap 1 (pf :: rest) := hslice ▸ slice_sorted hsort
    set pl := List.getLast (pf :: rest) (List.cons_ne_nil pf rest) with hpldef
    have hpl_mem : pl ∈ pf :: rest := List.getLast_mem (List.cons_ne_nil pf rest)
    have hmin : ∀ e ∈ pf :: rest, pf.1 ≤ e.1 := fun e he => head_key_le hss rfl he
    have hmax : ∀ e ∈ pf :: rest, e.1 ≤ pl.1 := fun e he =>
      le_getLast_key hss (List.getLast?_eq_getLast (pf :: rest) (List.cons_ne_nil pf rest)) he
    have hslmem : ∀ e ∈ pf :: rest, e ∈ m.ptrs ∧
        (r.start - (cfg.pointer_size - 1) ≤ e.1 ∧ e.1 < r.stop) := by
      intro e he
      rw [← hslice] at he
      exact mem_range_get_ptrs.mp he
    have hpfw := hslmem pf (List.mem_cons_self pf rest)
    have hplw := hslmem pl hpl_mem
    have hclr := clear_cons_addr cfg m r pf rest haddr hslice
    rw [← hpldef] at hclr
    have hmem2 : ∀ e : Nat × Prov, e ∈ (ProvenanceMap.clear cfg m r).2.ptrs ↔
        e ∈ m.ptrs ∧ ¬(pf.1 ≤ e.1 ∧ e.1 < pl.1 + cfg.pointer_size) := by
      intro e
      rw [hclr]
      exact SortedMap.mem_remove_range
    have hfl : r.start < pf.1 + cfg.pointer_size := by
      have := hpfw.2.1
      omega
    have hgbo := clear_addr_get_bytes cfg m r pf rest haddr hslice o
    rw [← hpldef] at hgbo
    refine ⟨by rw [hclr], ?_⟩
    by_cases hcov : ∃ kp : Nat × Prov, kp ∈ m.ptrs ∧ kp.1 ≤ o ∧ o < kp.1 + cfg.pointer_size
    · rcases hcov with ⟨kp, hkm, hk1, hk2⟩
      have hgetm : ProvenanceMap.get cfg m o = some kp.2 :=
        get_eq_of_cover hps hgap (show (kp.1, kp.2) ∈ m.ptrs from hkm) hk1 hk2
      by_cases hin : pf.1 ≤ kp.1 ∧ kp.1 < pl.1 + cfg.pointer_size
      · have hkpl : kp.1 ≤ pl.1 := by
          rcases gap_pair_rel hgap hkm hplw.1 with h | h | h
          · exact le_of_eq (congrArg Prod.fst h)
          · omega
          · omega
        have hksl : kp ∈ pf :: rest := by
          rw [← hslice]
          refine mem_range_get_ptrs.mpr ⟨hkm, ?_, ?_⟩
          · have := hpfw.2.1
            omega
          · have := hplw.2.2
            omega
        have hnotcov : ∀ e ∈ (ProvenanceMap.clear cfg m r).2.ptrs,
            ¬(e.1 ≤ o ∧ o < e.1 + cfg.pointer_size) := by
          intro e he hcc
          rcases (hmem2 e).mp he with ⟨hem, hnr⟩
          have heq : e = kp := cover_unique hps hgap hem hkm hcc.1 hcc.2 hk1 hk2
          subst heq
          exact hnr hin
        have hget2 : ProvenanceMap.get cfg (ProvenanceMap.clear cfg m r).2 o =
            SortedMap.get (ProvenanceMap.clear cfg m r).2.bytes o :=
          get_eq_bytes_of_not_covered hps hnotcov
        have hminkp := hmin kp hksl
        rcases ho with hlt | hge
        · have hkpf : kp = pf := by
            rcases gap_pair_rel hgap hkm hpfw.1 with h | h | h
            · exact h
            · omega
            · omega
          rw [hget2, hgbo]
          rw [if_neg (by omega : ¬(pl.1 + cfg.pointer_size > r.stop ∧ r.stop ≤ o ∧
            o < pl.1 + cfg.pointer_size))]
          rw [if_pos (show pf.1 < r.start ∧ pf.1 ≤ o ∧ o < r.start by
            have h1 := congrArg Prod.fst hkpf
            omega)]
          rw [hgetm, hkpf]
        · have hkpl2 : kp = pl := by
            rcases gap_pair_rel hgap hkm hplw.1 with h | h | h
            · exact h
            · omega
            · omega
          rw [hget2, hgbo]
          rw [if_pos (show pl.1 + cfg.pointer_size > r.stop ∧ r.stop ≤ o ∧
              o < pl.1 + cfg.pointer_size by
            have h1 := congrArg Prod.fst hkpl2
            omega)]
          rw [hgetm, hkpl2]
      · have hsur : kp ∈ (ProvenanceMap.clear cfg m r).2.ptrs := (hmem2 kp).mpr ⟨hkm, hin⟩
        have hgap2 : PtrGap cfg.pointer_size (ProvenanceMap.clear cfg m r).2.ptrs := by
          rw [hclr]
          exact List.Pairwise.sublist (List.filter_sublist _) hgap
        have hget2 : ProvenanceMap.get cfg (ProvenanceMap.clear cfg m r).2 o = some kp.2 :=
          get_eq_of_cover hps hgap2
            (show (kp.1, kp.2) ∈ (ProvenanceMap.clear cfg m r).2.ptrs from hsur) hk1 hk2
        rw [hget2, hgetm]
    · have hncov : ∀ e ∈ m.ptrs, ¬(e.1 ≤ o ∧ o < e.1 + cfg.pointer_size) :=
        fun e he hcc => hcov ⟨e, he, hcc.1, hcc.2⟩
      have hgm : ProvenanceMap.get cfg m o = SortedMap.get m.bytes o :=
        get_eq_bytes_of_not_covered hps hncov
      have hncov2 : ∀ e ∈ (ProvenanceMap.clear cfg m r).2.ptrs,
          ¬(e.1 ≤ o ∧ o < e.1 + cfg.pointer_size) :=
        fun e he hcc => hncov e ((hmem2 e).mp he).1 hcc
      have hg2 : ProvenanceMap.get cfg (ProvenanceMap.clear cfg m r).2 o =
          SortedMap.get (ProvenanceMap.clear cfg m r).2.bytes o :=
        get_eq_bytes_of_not_covered hps hncov2
      rw [hg2, hgbo]
      rw [if_neg (show ¬(pl.1 + cfg.pointer_size > r.stop ∧ r.stop ≤ o ∧
          o < pl.1 + cfg.pointer_size) from
        fun hcc => hncov pl hplw.1 ⟨by omega, hcc.2.2⟩)]
      rw [if_neg (show ¬(pf.1 < r.start ∧ pf.1 ≤ o ∧ o < r.start) from
        fun hcc => hncov pf hpfw.1 ⟨hcc.2.1, by omega⟩)]
      rw [if_neg (by omega : ¬(r.start ≤ o ∧ o < r.stop))]
      rw [hgm]

/-- C10, witness: splittable pointer width 8, entry at 4 straddling the
cleared range `[6, 10)`, probing the preserved offset 4. -/
theorem c10_witness :
    ((1 : Nat) ≤ 8 ∧ PtrGap 8 (⟨[(4, 6)], []⟩ : ProvenanceMap Nat).ptrs ∧
        ((4 : Nat) < 6 ∨ (AllocRange.mk 6 4).stop ≤ 4)) ∧
      ((ProvenanceMap.clear ⟨8, true⟩ (⟨[(4, 6)], []⟩ : ProvenanceMap Nat) ⟨6, 4⟩).1 =
          Except.ok () ∧
        ProvenanceMap.get ⟨8, true⟩
            (ProvenanceMap.clear ⟨8, true⟩ (⟨[(4, 6)], []⟩ : ProvenanceMap Nat) ⟨6, 4⟩).2 4 =
          ProvenanceMap.get ⟨8, true⟩ (⟨[(4, 6)], []⟩ : ProvenanceMap Nat) 4) :=
  ⟨⟨by decide, by decide, by decide⟩,
    c10_clear_frame ⟨8, true⟩ (⟨[(4, 6)], []⟩ : ProvenanceMap Nat) ⟨6, 4⟩ 4 (by decide)
      rfl (by decide) (by decide)⟩

/-! ## Properties of the replication step of the copy planner -/

theorem replicate_shifted_zero {Prov : Type} (src : AllocRange) (dest : Nat)
    (l : List (Nat × Prov)) : ProvenanceMap.replicate_shifted src dest 0 l = [] := rfl

theorem replicate_shifted_succ {Prov : Type} (src : AllocRange) (dest n : Nat)
    (l : List (Nat × Prov)) :
    ProvenanceMap.replicate_shifted src dest (n + 1) l =
      ProvenanceMap.replicate_shifted src dest n l ++
        l.map (fun e => (ProvenanceMap.shift_offset src dest n e.1, e.2)) := by
  rw [ProvenanceMap.replicate_shifted, ProvenanceMap.replicate_shifted, List.range_succ,
    List.foldl_append]
  rfl

/-- Replicating a spaced, bounded collection keeps the spacing: the keys of
each repetition are strictly below the next repetition's base offset. -/
theorem replicate_shifted_gap {Prov : Type} (g : Nat) (src : AllocRange) (dest : Nat)
    (l : List (Nat × Prov)) (hg : PtrGap g l) (hlo : ∀ e ∈ l, src.start ≤ e.1)
    (hhi : ∀ e ∈ l, e.1 + g ≤ src.stop) :
    ∀ count : Nat, PtrGap g (ProvenanceMap.replicate_shifted src dest count l) ∧
      ∀ e ∈ ProvenanceMap.replicate_shifted src dest count l,
        dest ≤ e.1 ∧ e.1 + g ≤ dest + src.size * count := by
  intro count
  induction count with
  | zero =>
    rw [replicate_shifted_zero]
    exact ⟨List.Pairwise.nil, fun e he => absurd he (List.not_mem_nil e)⟩
  | succ n ih =>
    rw [replicate_shifted_succ]
    have hmul : src.size * (n + 1) = src.size * n + src.size := by ring
    have hstop : src.stop = src.start + src.size := rfl
    have hmap_mem : ∀ e ∈ l.map (fun e => (ProvenanceMap.shift_offset src dest n e.1, e.2)),
        dest + src.size * n ≤ e.1 ∧ e.1 + g ≤ dest + src.size * n + src.size := by
      intro e he
      rcases List.mem_map.mp he with ⟨x, hx, hex⟩
      have h1 := hlo x hx
      have h2 := hhi x hx
      have hfst : e.1 = (x.1 - src.start) + (dest + src.size * n) := by
        rw [← hex]
        rfl
      rw [hfst]
      constructor
      · omega
      · have : x.1 + g ≤ src.start + src.size := by rw [← hstop]; exact h2
        omega
    constructor
    · refine List.pairwise_append.mpr ⟨ih.1, ?_, ?_⟩
      · rw [List.pairwise_map]
        refine hg.imp_of_mem ?_
        intro a b ha hb hab
        have h1 := hlo a ha
        show (a.1 - src.start) + (dest + src.size * n) + g ≤
          (b.1 - src.start) + (dest + src.size * n)
        omega
      · intro a ha b hb
        have h1 := (ih.2 a ha).2
        have h2 := (hmap_mem b hb).1
        omega
    · intro e he
      rcases List.mem_append.mp he with h | h
      · have h1 := ih.2 e h
        constructor
        · exact h1.1
        · omega
      · have h1 := hmap_mem e h
        constructor
        · omega
        · omega

theorem mem_replicate_shifted {Prov : Type} {src : AllocRange} {dest : Nat}
    {l : List (Nat × Prov)} {e : Nat × Prov} :
    ∀ {count : Nat}, e ∈ ProvenanceMap.replicate_shifted src dest count l →
      ∃ i, i < count ∧ ∃ x ∈ l, e = (ProvenanceMap.shift_offset src dest i x.1, x.2) := by
  intro count
  induction count with
  | zero =>
    intro he
    rw [replicate_shifted_zero] at he
    simp at he
  | succ n ih =>
    intro he
    rw [replicate_shifted_succ] at he
    rcases List.mem_append.mp he with h | h
    · rcases ih h with ⟨i, hi, x, hx, hex⟩
      exact ⟨i, by omega, x, hx, hex⟩
    · rcases List.mem_map.mp h with ⟨x, hx, hex⟩
      exact ⟨n, by omega, x, hx, hex.symm⟩

theorem gap_one_keys_nodup {Prov : Type} {l : List (Nat × Prov)} (h : PtrGap 1 l) :
    (l.map Prod.fst).Nodup := by
  have h2 : List.Pairwise (fun a b : Nat × Prov => a.1 ≠ b.1) l :=
    h.imp (fun hab => by omega)
  exact List.Pairwise.map Prod.fst (fun a b hab => hab) h2

theorem pairwise_single {α : Type} {R : α → α → Prop} (a : α) : List.Pairwise R [a] :=
  List.pairwise_cons.mpr ⟨fun b hb => absurd hb (List.not_mem_nil b), List.Pairwise.nil⟩

/-- The start-edge step either contributes nothing or the in-range part of a
pointer straddling `src.start`. -/
theorem copy_start_bytes_ok_cases {Prov : Type} {cfg : Config} {m : ProvenanceMap Prov}
    {src : AllocRange} {bytes1 : List (Nat × Prov)} (hps : 1 ≤ cfg.pointer_size)
    (h : ProvenanceMap.copy_start_bytes cfg m src = Except.ok bytes1) :
    bytes1 = [] ∨ ∃ entry : Nat × Prov, entry ∈ m.ptrs ∧ entry.1 < src.start ∧
      src.start < entry.1 + cfg.pointer_size ∧
      bytes1 = (List.range' src.start
        (min (entry.1 + cfg.pointer_size) src.stop - src.start)).map
        (fun o => (o, entry.2)) := by
  rcases hh : (ProvenanceMap.range_get_ptrs cfg m ⟨src.start, 0⟩).head? with _ | entry
  · rw [copy_start_bytes_nil cfg m src hh] at h
    simp only [Except.ok.injEq] at h
    exact Or.inl h.symm
  · by_cases haddr : cfg.offset_is_addr = true
    · rw [copy_start_bytes_addr cfg m src entry haddr hh] at h
      simp only [Except.ok.injEq] at h
      have hstr := (zero_probe_mem hps).mp (head?_mem hh)
      exact Or.inr ⟨entry, hstr.1, hstr.2.1, hstr.2.2, h.symm⟩
    · have haddr2 : cfg.offset_is_addr = false := by
        revert haddr
        cases cfg.offset_is_addr <;> simp
      rw [copy_start_bytes_err cfg m src entry haddr2 hh] at h
      simp at h

/-- The end-edge fold keeps the collected list strictly sorted (it only
appends offsets larger than the current last) and only adds entries with
the straddling pointer's provenance at offsets from its own range. -/
theorem end_fold_sorted_mem {Prov : Type} (v : Prov) :
    ∀ (os : List Nat) (acc : List (Nat × Prov)), PtrGap 1 acc →
      PtrGap 1 (os.foldl (fun acc o =>
        match acc.getLast? with
        | none => acc ++ [(o, v)]
        | some e => if e.1 < o then acc ++ [(o, v)] else acc) acc) ∧
      ∀ e ∈ os.foldl (fun acc o =>
        match acc.getLast? with
        | none => acc ++ [(o, v)]
        | some e => if e.1 < o then acc ++ [(o, v)] else acc) acc,
        e ∈ acc ∨ (e.1 ∈ os ∧ e.2 = v) := by
  intro os
  induction os with
  | nil => exact fun acc hacc => ⟨hacc, fun e he => Or.inl he⟩
  | cons o os ih =>
    intro acc hacc
    rw [List.foldl_cons]
    have hs1 : PtrGap 1 (match acc.getLast? with
        | none => acc ++ [(o, v)]
        | some e => if e.1 < o then acc ++ [(o, v)] else acc) ∧
        ∀ e ∈ (match acc.getLast? with
          | none => acc ++ [(o, v)]
          | some e => if e.1 < o then acc ++ [(o, v)] else acc),
          e ∈ acc ∨ e = (o, v) := by
      cases hl : acc.getLast? with
      | none =>
        have hnil : acc = [] := List.getLast?_eq_none_iff.mp hl
        subst hnil
        refine ⟨pairwise_single (o, v), ?_⟩
        intro e he
        simp at he
        exact Or.inr he
      | some last =>
        dsimp only
        by_cases hlt : last.1 < o
        · rw [if_pos hlt]
          constructor
          · refine List.pairwise_append.mpr ⟨hacc, pairwise_single (o, v), ?_⟩
            intro a ha b hb
            simp only [List.mem_singleton] at hb
            subst hb
            have h2 := le_getLast_key hacc hl ha
            show a.1 + 1 ≤ o
            omega
          · intro e he
            rcases List.mem_append.mp he with h | h
            · exact Or.inl h
            · simp at h
              exact Or.inr h
        · rw [if_neg hlt]
          exact ⟨hacc, fun e he => Or.inl he⟩
    rcases ih _ hs1.1 with ⟨ihs, ihm⟩
    refine ⟨ihs, ?_⟩
    intro e he
    rcases ihm e he with h | h
    · rcases hs1.2 e h with h2 | h2
      · exact Or.inl h2
      · refine Or.inr ⟨?_, by rw [h2]⟩
        rw [h2]
        exact List.mem_cons_self o os
    · exact Or.inr ⟨List.mem_cons_of_mem o h.1, h.2⟩

/-- The collected per-repetition byte list of `prepare_copy` is strictly
sorted, lies within the source range, and avoids the span of every pointer
entry wholly contained in the source range. -/
theorem copy_bytes3_spec {Prov : Type} {cfg : Config} {m : ProvenanceMap Prov}
    {src : AllocRange} {bytes1 bytes3 : List (Nat × Prov)}
    (hps : 1 ≤ cfg.pointer_size) (hgap : PtrGap cfg.pointer_size m.ptrs)
    (hbs : PtrGap 1 m.bytes)
    (hdisj : ∀ b ∈ m.bytes, ∀ q ∈ m.ptrs, ¬(q.1 ≤ b.1 ∧ b.1 < q.1 + cfg.pointer_size))
    (h1 : ProvenanceMap.copy_start_bytes cfg m src = Except.ok bytes1)
    (h3 : ProvenanceMap.copy_end_bytes cfg m src
      (if cfg.offset_is_addr = true then
        bytes1 ++ SortedMap.range m.bytes src.start src.stop
      else bytes1) = Except.ok bytes3) :
    PtrGap 1 bytes3 ∧ (∀ e ∈ bytes3, src.start ≤ e.1 ∧ e.1 < src.stop) ∧
      (∀ e ∈ bytes3, ∀ q ∈ m.ptrs, src.start ≤ q.1 → q.1 + cfg.pointer_size ≤ src.stop →
        ¬(q.1 ≤ e.1 ∧ e.1 < q.1 + cfg.pointer_size)) := by
  have hstop : src.stop = src.start + src.size := rfl
  have hb1 := copy_start_bytes_ok_cases hps h1
  have hb1sorted : PtrGap 1 bytes1 := by
    rcases hb1 with h | ⟨entry, hm, hlt, hstr, heq⟩
    · rw [h]
      exact List.Pairwise.nil
    · rw [heq]
      refine List.pairwise_map.mpr ((List.pairwise_lt_range' _ _).imp ?_)
      intro a b hab
      show a + 1 ≤ b
      omega
  have hb1bounds : ∀ e ∈ bytes1, src.start ≤ e.1 ∧ e.1 < src.stop := by
    rcases hb1 with h | ⟨entry, hm, hlt, hstr, heq⟩
    · rw [h]
      intro e he
      simp at he
    · rw [heq]
      intro e he
      rcases List.mem_map.mp he with ⟨oo, ho, heo⟩
      have hoo := List.mem_range'_1.mp ho
      have hml : min (entry.1 + cfg.pointer_size) src.stop ≤ src.stop := min_le_right _ _
      rw [← heo]
      exact ⟨hoo.1, by show oo < src.stop; omega⟩
  have hb1_below : ∀ e ∈ bytes1, ∀ q ∈ m.ptrs, src.start ≤ q.1 → e.1 < q.1 := by
    rcases hb1 with h | ⟨entry, hm, hlt, hstr, heq⟩
    · rw [h]
      intro e he
      simp at he
    · rw [heq]
      intro e he q hq hs
      rcases List.mem_map.mp he with ⟨oo, ho, heo⟩
      have hoo := List.mem_range'_1.mp ho
      have hml : min (entry.1 + cfg.pointer_size) src.stop ≤ entry.1 + cfg.pointer_size :=
        min_le_left _ _
      have hqe : entry.1 + cfg.pointer_size ≤ q.1 := by
        rcases gap_pair_rel hgap hm hq with hh | hh | hh
        · exfalso
          have := congrArg Prod.fst hh
          omega
        · exact hh
        · exfalso
          omega
      rw [← heo]
      show oo < q.1
      omega
  have hb1_below_bytes : ∀ e ∈ bytes1, ∀ b ∈ m.bytes, src.start ≤ b.1 → e.1 < b.1 := by
    rcases hb1 with h | ⟨entry, hm, hlt, hstr, heq⟩
    · rw [h]
      intro e he
      simp at he
    · rw [heq]
      intro e he b hb hs
      rcases List.mem_map.mp he with ⟨oo, ho, heo⟩
      have hoo := List.mem_range'_1.mp ho
      have hml : min (entry.1 + cfg.pointer_size) src.stop ≤ entry.1 + cfg.pointer_size :=
        min_le_left _ _
      have hbe : entry.1 + cfg.pointer_size ≤ b.1 := by
        have := hdisj b hb entry hm
        omega
      rw [← heo]
      show oo < b.1
      omega
  set B2 := (if cfg.offset_is_addr = true then
    bytes1 ++ SortedMap.range m.bytes src.start src.stop else bytes1) with hB2
  have hB2sorted : PtrGap 1 B2 := by
    rw [hB2]
    by_cases haddr : cfg.offset_is_addr = true
    · rw [if_pos haddr]
      refine List.pairwise_append.mpr ⟨hb1sorted, ?_, ?_⟩
      · rw [SortedMap.range]
        exact List.Pairwise.sublist (List.filter_sublist _) hbs
      · intro a ha b hb
        rcases SortedMap.mem_range.mp hb with ⟨hbm, hb1r, _⟩
        have := hb1_below_bytes a ha b hbm hb1r
        omega
    · rw [if_neg haddr]
      exact hb1sorted
  have hB2bounds : ∀ e ∈ B2, src.start ≤ e.1 ∧ e.1 < src.stop := by
    rw [hB2]
    by_cases haddr : cfg.offset_is_addr = true
    · rw [if_pos haddr]
      intro e he
      rcases List.mem_append.mp he with h | h
      · exact hb1bounds e h
      · exact (SortedMap.mem_range.mp h).2
    · rw [if_neg haddr]
      exact hb1bounds
  have hB2span : ∀ e ∈ B2, ∀ q ∈ m.ptrs, src.start ≤ q.1 →
      q.1 + cfg.pointer_size ≤ src.stop → ¬(q.1 ≤ e.1 ∧ e.1 < q.1 + cfg.pointer_size) := by
    rw [hB2]
    by_cases haddr : cfg.offset_is_addr = true
    · rw [if_pos haddr]
      intro e he q hq hqs hqe
      rcases List.mem_append.mp he with h | h
      · have := hb1_below e h q hq hqs
        omega
      · exact hdisj e (SortedMap.mem_range.mp h).1 q hq
    · rw [if_neg haddr]
      intro e he q hq hqs hqe
      have := hb1_below e he q hq hqs
      omega
  rcases he2 : (ProvenanceMap.range_get_ptrs cfg m ⟨src.stop, 0⟩).head? with _ | entryE
  · rw [copy_end_bytes_nil cfg m src _ he2] at h3
    simp only [Except.ok.injEq] at h3
    subst h3
    exact ⟨hB2sorted, hB2bounds, hB2span⟩
  · by_cases haddr : cfg.offset_is_addr = true
    · rw [copy_end_bytes_addr cfg m src _ entryE haddr he2] at h3
      simp only [Except.ok.injEq] at h3
      obtain ⟨hfsorted, hfmem⟩ := end_fold_sorted_mem entryE.2
        (List.range' (max entryE.1 src.start) (src.stop - max entryE.1 src.start)) B2
        hB2sorted
      rw [h3] at hfsorted hfmem
      have hEstr := (zero_probe_mem hps).mp (head?_mem he2)
      have hmxl := le_max_left entryE.1 src.start
      have hmxr := le_max_right entryE.1 src.start
      have hmxs : max entryE.1 src.start ≤ src.stop :=
        max_le (le_of_lt hEstr.2.1) (by omega)
      refine ⟨hfsorted, ?_, ?_⟩
      · intro e he
        rcases hfmem e he with h | h
        · exact hB2bounds e h
        · have hrng := List.mem_range'_1.mp h.1
          constructor
          · omega
          · omega
      · intro e he q hq hqs hqe
        rcases hfmem e he with h | h
        · exact hB2span e h q hq hqs hqe
        · have hrng := List.mem_range'_1.mp h.1
          have hqE : q.1 + cfg.pointer_size ≤ entryE.1 := by
            rcases gap_pair_rel hgap hq hEstr.1 with hh | hh | hh
            · exfalso
              have := congrArg Prod.fst hh
              omega
            · exact hh
            · exfalso
              omega
          intro hcc
          omega
    · have haddr2 : cfg.offset_is_addr = false := by
        revert haddr
        cases cfg.offset_is_addr <;> simp
      rw [copy_end_bytes_err cfg m src _ entryE haddr2 he2] at h3
      simp at h3

/-- Inverting a successful `prepare_copy` into its collected components. -/
theorem prepare_copy_ok_destruct {Prov : Type} {cfg : Config} {m : ProvenanceMap Prov}
    {src : AllocRange} {dest count : Nat} {c : ProvenanceCopy Prov}
    (hok : ProvenanceMap.prepare_copy cfg m src dest count = Except.ok c) :
    ∃ bytes1 bytes3 : List (Nat × Prov),
      ProvenanceMap.copy_start_bytes cfg m src = Except.ok bytes1 ∧
      ProvenanceMap.copy_end_bytes cfg m src
        (if cfg.offset_is_addr = true then
          bytes1 ++ SortedMap.range m.bytes src.start src.stop
        else bytes1) = Except.ok bytes3 ∧
      c = ⟨ProvenanceMap.replicate_shifted src dest count
            (if src.size < cfg.pointer_size then []
             else SortedMap.range m.ptrs src.start (src.stop - (cfg.pointer_size - 1))),
           ProvenanceMap.replicate_shifted src dest count bytes3⟩ := by
  rw [ProvenanceMap.prepare_copy] at hok
  rcases h1 : ProvenanceMap.copy_start_bytes cfg m src with e1 | bytes1
  · rw [h1] at hok
    simp at hok
  · rw [h1] at hok
    dsimp only at hok
    rcases h3 : ProvenanceMap.copy_end_bytes cfg m src
        (if cfg.offset_is_addr = true then
          bytes1 ++ SortedMap.range m.bytes src.start src.stop
        else bytes1) with e3 | bytes3
    · rw [h3] at hok
      simp at hok
    · rw [h3] at hok
      simp only [Except.ok.injEq] at hok
      exact ⟨bytes1, bytes3, rfl, h3, hok.symm⟩

/-! ## Claim C2 (copy plan satisfies the presorted bulk-insert contract) -/

/-- C2: for a map satisfying the disjointness invariant, a successful
`prepare_copy` produces a plan whose `dest_ptrs` and `dest_bytes` offset
sequences are strictly increasing (hence duplicate-free) across all `count`
repetitions — the precondition of `insert_presorted` — including the case
where the start-edge and end-edge probes hit the same pointer entry, which
the end-edge fold deduplicates by offset. -/
theorem c2_prepare_copy_presorted {Prov : Type} (cfg : Config) (m : ProvenanceMap Prov)
    (src : AllocRange) (dest count : Nat) (c : ProvenanceCopy Prov)
    (hps : 1 ≤ cfg.pointer_size) (hgap : PtrGap cfg.pointer_size m.ptrs)
    (hbs : PtrGap 1 m.bytes)
    (hdisj : ∀ b ∈ m.bytes, ∀ q ∈ m.ptrs, ¬(q.1 ≤ b.1 ∧ b.1 < q.1 + cfg.pointer_size))
    (hok : ProvenanceMap.prepare_copy cfg m src dest count = Except.ok c) :
    PtrGap 1 c.dest_ptrs ∧ PtrGap 1 c.dest_bytes ∧
      (c.dest_ptrs.map Prod.fst).Nodup ∧ (c.dest_bytes.map Prod.fst).Nodup := by
  obtain ⟨bytes1, bytes3, h1, h3, hc⟩ := prepare_copy_ok_destruct hok
  obtain ⟨hb3sorted, hb3bounds, _⟩ := copy_bytes3_spec hps hgap hbs hdisj h1 h3
  have hcp_gap : PtrGap cfg.pointer_size
      (if src.size < cfg.pointer_size then ([] : List (Nat × Prov))
       else SortedMap.range m.ptrs src.start (src.stop - (cfg.pointer_size - 1))) := by
    by_cases hsz : src.size < cfg.pointer_size
    · rw [if_pos hsz]
      exact List.Pairwise.nil
    · rw [if_neg hsz]
      rw [SortedMap.range]
      exact List.Pairwise.sublist (List.filter_sublist _) hgap
  have hcp_bounds : ∀ e ∈ (if src.size < cfg.pointer_size then ([] : List (Nat × Prov))
      else SortedMap.range m.ptrs src.start (src.stop - (cfg.pointer_size - 1))),
      src.start ≤ e.1 ∧ e.1 + cfg.pointer_size ≤ src.stop := by
    by_cases hsz : src.size < cfg.pointer_size
    · rw [if_pos hsz]
      intro e he
      simp at he
    · rw [if_neg hsz]
      intro e he
      rcases SortedMap.mem_range.mp he with ⟨_, hlo, hhi⟩
      exact ⟨hlo, by omega⟩
  have hdp := replicate_shifted_gap cfg.pointer_size src dest _ hcp_gap
    (fun e he => (hcp_bounds e he).1) (fun e he => (hcp_bounds e he).2) count
  have hdb := replicate_shifted_gap 1 src dest bytes3 hb3sorted
    (fun e he => (hb3bounds e he).1)
    (fun e he => by have := (hb3bounds e he).2; omega) count
  rw [hc]
  exact ⟨gap_mono hps hdp.1, hdb.1, gap_one_keys_nodup (gap_mono hps hdp.1),
    gap_one_keys_nodup hdb.1⟩

/-- C2, witness: copying `[2, 6)` out of a pointer spanning `[0, 8)` twice —
the case where both edge probes hit the same entry and the end-edge fold
must deduplicate by offset. -/
theorem c2_witness :
    (((1 : Nat) ≤ 8 ∧ PtrGap 8 (⟨[(0, 3)], []⟩ : ProvenanceMap Nat).ptrs ∧
        PtrGap 1 (⟨[(0, 3)], []⟩ : ProvenanceMap Nat).bytes ∧
        (∀ b ∈ (⟨[(0, 3)], []⟩ : ProvenanceMap Nat).bytes,
          ∀ q ∈ (⟨[(0, 3)], []⟩ : ProvenanceMap Nat).ptrs,
            ¬(q.1 ≤ b.1 ∧ b.1 < q.1 + 8))) ∧
      ProvenanceMap.prepare_copy ⟨8, true⟩ (⟨[(0, 3)], []⟩ : ProvenanceMap Nat) ⟨2, 4⟩ 100 2 =
        Except.ok
          (⟨[], [(100, 3), (101, 3), (102, 3), (103, 3), (104, 3), (105, 3), (106, 3),
            (107, 3)]⟩ : ProvenanceCopy Nat)) ∧
    (PtrGap 1 (⟨[], [(100, 3), (101, 3), (102, 3), (103, 3), (104, 3), (105, 3), (106, 3),
          (107, 3)]⟩ : ProvenanceCopy Nat).dest_ptrs ∧
      PtrGap 1 (⟨[], [(100, 3), (101, 3), (102, 3), (103, 3), (104, 3), (105, 3), (106, 3),
          (107, 3)]⟩ : ProvenanceCopy Nat).dest_bytes ∧
      ((⟨[], [(100, 3), (101, 3), (102, 3), (103, 3), (104, 3), (105, 3), (106, 3),
          (107, 3)]⟩ : ProvenanceCopy Nat).dest_ptrs.map Prod.fst).Nodup ∧
      ((⟨[], [(100, 3), (101, 3), (102, 3), (103, 3), (104, 3), (105, 3), (106, 3),
          (107, 3)]⟩ : ProvenanceCopy Nat).dest_bytes.map Prod.fst).Nodup) :=
  ⟨⟨⟨by decide, by decide, by decide, by decide⟩, by decide⟩,
    c2_prepare_copy_presorted ⟨8, true⟩ (⟨[(0, 3)], []⟩ : ProvenanceMap Nat) ⟨2, 4⟩ 100 2
      (⟨[], [(100, 3), (101, 3), (102, 3), (103, 3), (104, 3), (105, 3), (106, 3),
        (107, 3)]⟩ : ProvenanceCopy Nat)
      (by decide) (by decide) (by decide) (by decide) (by decide)⟩

/-! ## Claim C1 (the disjointness invariant) -/

theorem inv_insert_ptr {Prov : Type} {cfg : Config} {m : ProvenanceMap Prov}
    (hps : 1 ≤ cfg.pointer_size) (hinv : Inv cfg m) {o : Nat} (p : Prov)
    (hemp : ProvenanceMap.range_empty cfg m ⟨o, cfg.pointer_size⟩ = true) :
    Inv cfg (ProvenanceMap.insert_ptr m o p) := by
  obtain ⟨hgap, hbs, hdisj, hempty⟩ := hinv
  obtain ⟨hpn, hbn⟩ := range_empty_iff.mp hemp
  have hW : ∀ e ∈ m.ptrs,
      ¬(o - (cfg.pointer_size - 1) ≤ e.1 ∧ e.1 < o + cfg.pointer_size) := by
    intro e he hc
    have hm2 : e ∈ ProvenanceMap.range_get_ptrs cfg m ⟨o, cfg.pointer_size⟩ :=
      mem_range_get_ptrs.mpr ⟨he, hc.1, hc.2⟩
    rw [hpn] at hm2
    simp at hm2
  have hB : ∀ b ∈ m.bytes, ¬(o ≤ b.1 ∧ b.1 < o + cfg.pointer_size) := by
    intro b hb hc
    have hm2 : b ∈ ProvenanceMap.range_get_bytes m ⟨o, cfg.pointer_size⟩ :=
      mem_range_get_bytes.mpr ⟨hb, hc.1, hc.2⟩
    rw [hbn] at hm2
    simp at hm2
  refine ⟨?_, hbs, ?_, hempty⟩
  · refine insert_gap cfg.pointer_size o p m.ptrs hgap ?_
    intro e he
    have := hW e he
    omega
  · intro b hb q hq
    rcases SortedMap.mem_insert hq with h | h
    · subst h
      exact hB b hb
    · exact hdisj b hb q h

theorem inv_clear {Prov : Type} {cfg : Config} {m : ProvenanceMap Prov}
    (hps : 1 ≤ cfg.pointer_size) (hinv : Inv cfg m) (r : AllocRange) :
    Inv cfg (ProvenanceMap.clear cfg m r).2 := by
  obtain ⟨hgap, hbs, hdisj, hempty⟩ := hinv
  have hsort : PtrGap 1 m.ptrs := gap_mono hps hgap
  rcases hslice : ProvenanceMap.range_get_ptrs cfg m r with _ | ⟨pf, rest⟩
  · by_cases haddr : cfg.offset_is_addr = true
    · have hc : ProvenanceMap.clear cfg m r =
          (Except.ok (), ⟨m.ptrs, SortedMap.remove_range m.bytes r.start r.stop⟩) := by
        rw [clear_addr_eq cfg m r haddr, hslice, ProvenanceMap.clear_core]
      rw [hc]
      refine ⟨hgap, ?_, ?_, ?_⟩
      · exact List.Pairwise.sublist (List.filter_sublist _) hbs
      · intro b hb q hq
        exact hdisj b (SortedMap.mem_remove_range.mp hb).1 q hq
      · intro hf
        exact absurd (haddr ▸ hf) (by decide)
    · have haddr2 : cfg.offset_is_addr = false := by
        revert haddr
        cases cfg.offset_is_addr <;> simp
      have hc : ProvenanceMap.clear cfg m r = (Except.ok (), m) := by
        rw [clear_nonaddr_eq cfg m r haddr2, hslice, ProvenanceMap.clear_core]
      rw [hc]
      exact ⟨hgap, hbs, hdisj, hempty⟩
  · have hss : PtrGap 1 (pf :: rest) := hslice ▸ slice_sorted hsort
    set pl := List.getLast (pf :: rest) (List.cons_ne_nil pf rest) with hpldef
    have hpl_mem : pl ∈ pf :: rest := List.getLast_mem (List.cons_ne_nil pf rest)
    have hmax : ∀ e ∈ pf :: rest, e.1 ≤ pl.1 := fun e he =>
      le_getLast_key hss (List.getLast?_eq_getLast (pf :: rest) (List.cons_ne_nil pf rest)) he
    have hslmem : ∀ e ∈ pf :: rest, e ∈ m.ptrs ∧
        (r.start - (cfg.pointer_size - 1) ≤ e.1 ∧ e.1 < r.stop) := by
      intro e he
      rw [← hslice] at he
      exact mem_range_get_ptrs.mp he
    have hpfw := hslmem pf (List.mem_cons_self pf rest)
    have hplw := hslmem pl hpl_mem
    have hpfpl : pf.1 ≤ pl.1 := hmax pf (List.mem_cons_self pf rest)
    by_cases haddr : cfg.offset_is_addr = true
    · have hclr := clear_cons_addr cfg m r pf rest haddr hslice
      rw [← hpldef] at hclr
      have hb0 : PtrGap 1 (SortedMap.remove_range m.bytes r.start r.stop) :=
        List.Pairwise.sublist (List.filter_sublist _) hbs
      have hb1s : PtrGap 1 (if pf.1 < r.start then
          ProvenanceMap.insert_loop (SortedMap.remove_range m.bytes r.start r.stop)
            pf.1 r.start pf.2
          else SortedMap.remove_range m.bytes r.start r.stop) := by
        by_cases h1 : pf.1 < r.start
        · rw [if_pos h1]
          exact insert_loop_sorted hb0 _ _ _
        · rw [if_neg h1]
          exact hb0
      have hBsorted : PtrGap 1 (if pl.1 + cfg.pointer_size > r.stop then
          ProvenanceMap.insert_loop
            (if pf.1 < r.start then
              ProvenanceMap.insert_loop (SortedMap.remove_range m.bytes r.start r.stop)
                pf.1 r.start pf.2
             else SortedMap.remove_range m.bytes r.start r.stop)
            r.stop (pl.1 + cfg.pointer_size) pl.2
          else
            (if pf.1 < r.start then
              ProvenanceMap.insert_loop (SortedMap.remove_range m.bytes r.start r.stop)
                pf.1 r.start pf.2
             else SortedMap.remove_range m.bytes r.start r.stop)) := by
        by_cases h2 : pl.1 + cfg.pointer_size > r.stop
        · rw [if_pos h2]
          exact insert_loop_sorted hb1s _ _ _
        · rw [if_neg h2]
          exact hb1s
      have hDisj : ∀ b ∈ (if pl.1 + cfg.pointer_size > r.stop then
          ProvenanceMap.insert_loop
            (if pf.1 < r.start then
              ProvenanceMap.insert_loop (SortedMap.remove_range m.bytes r.start r.stop)
                pf.1 r.start pf.2
             else SortedMap.remove_range m.bytes r.start r.stop)
            r.stop (pl.1 + cfg.pointer_size) pl.2
          else
            (if pf.1 < r.start then
              ProvenanceMap.insert_loop (SortedMap.remove_range m.bytes r.start r.stop)
                pf.1 r.start pf.2
             else SortedMap.remove_range m.bytes r.start r.stop)),
          ∀ q ∈ SortedMap.remove_range m.ptrs pf.1 (pl.1 + cfg.pointer_size),
            ¬(q.1 ≤ b.1 ∧ b.1 < q.1 + cfg.pointer_size) := by
        intro b hb q hq hcc
        rcases SortedMap.mem_remove_range.mp hq with ⟨hqm, hqnr⟩
        have hbcases : b ∈ m.bytes ∨ (pf.1 ≤ b.1 ∧ b.1 < r.start ∧ b.2 = pf.2) ∨
            (r.stop ≤ b.1 ∧ b.1 < pl.1 + cfg.pointer_size ∧ b.2 = pl.2) := by
          by_cases h2 : pl.1 + cfg.pointer_size > r.stop
          · rw [if_pos h2] at hb
            rcases mem_insert_loop hb with h | h
            · exact Or.inr (Or.inr ⟨h.1, h.2.1, h.2.2⟩)
            · by_cases h1 : pf.1 < r.start
              · rw [if_pos h1] at h
                rcases mem_insert_loop h with h3 | h3
                · exact Or.inr (Or.inl ⟨h3.1, h3.2.1, h3.2.2⟩)
                · exact Or.inl (SortedMap.mem_remove_range.mp h3).1
              · rw [if_neg h1] at h
                exact Or.inl (SortedMap.mem_remove_range.mp h).1
          · rw [if_neg h2] at hb
            by_cases h1 : pf.1 < r.start
            · rw [if_pos h1] at hb
              rcases mem_insert_loop hb with h3 | h3
              · exact Or.inr (Or.inl ⟨h3.1, h3.2.1, h3.2.2⟩)
              · exact Or.inl (SortedMap.mem_remove_range.mp h3).1
            · rw [if_neg h1] at hb
              exact Or.inl (SortedMap.mem_remove_range.mp hb).1
        rcases hbcases with h | h | h
        · exact hdisj b h q hqm hcc
        · have hqne : q.1 ≠ pf.1 := by
            intro hq2
            exact hqnr ⟨by omega, by omega⟩
          rcases gap_pair_rel hgap hqm hpfw.1 with hh | hh | hh
          · exact hqne (congrArg Prod.fst hh)
          · omega
          · have := hpfw.2.1
            omega
        · have hqne : q.1 ≠ pl.1 := by
            intro hq2
            exact hqnr ⟨by omega, by omega⟩
          rcases gap_pair_rel hgap hqm hplw.1 with hh | hh | hh
          · exact hqne (congrArg Prod.fst hh)
          · have := hplw.2.2
            omega
          · omega
      rw [hclr]
      exact ⟨List.Pairwise.sublist (List.filter_sublist _) hgap, hBsorted, hDisj,
        fun hf => absurd (haddr ▸ hf) (by decide)⟩
    · have haddr2 : cfg.offset_is_addr = false := by
        revert haddr
        cases cfg.offset_is_addr <;> simp
      by_cases h1 : pf.1 < r.start
      · have hc := clear_cons_nonaddr_error_first cfg m r pf rest haddr2 hslice h1
        rw [hc]
        exact ⟨hgap, hbs, hdisj, hempty⟩
      · by_cases h2 : pl.1 + cfg.pointer_size > r.stop
        · have hc := clear_cons_nonaddr_error_last cfg m r pf rest haddr2 hslice h1
            (by rw [← hpldef]; exact h2)
          rw [hc]
          exact ⟨hgap, hbs, hdisj, hempty⟩
        · have hc := clear_cons_nonaddr_ok cfg m r pf rest haddr2 hslice h1
            (by rw [← hpldef]; exact h2)
          rw [← hpldef] at hc
          rw [hc]
          refine ⟨List.Pairwise.sublist (List.filter_sublist _) hgap, hbs, ?_, hempty⟩
          intro b hb q hq
          exact hdisj b hb q (SortedMap.mem_remove_range.mp hq).1

/-- Entries of different repetitions never land in each other's spans, and
within one repetition the source-level disjointness is preserved by the
affine shift. -/
theorem replicate_cross_disjoint {Prov : Type} {src : AllocRange} {dest ps : Nat}
    {lb lp : List (Nat × Prov)}
    (hlb_lo : ∀ e ∈ lb, src.start ≤ e.1) (hlb_hi : ∀ e ∈ lb, e.1 < src.stop)
    (hlp_lo : ∀ e ∈ lp, src.start ≤ e.1) (hlp_hi : ∀ e ∈ lp, e.1 + ps ≤ src.stop)
    (hdisj : ∀ b ∈ lb, ∀ q ∈ lp, ¬(q.1 ≤ b.1 ∧ b.1 < q.1 + ps)) (count : Nat) :
    ∀ b ∈ ProvenanceMap.replicate_shifted src dest count lb,
      ∀ q ∈ ProvenanceMap.replicate_shifted src dest count lp,
        ¬(q.1 ≤ b.1 ∧ b.1 < q.1 + ps) := by
  intro b hb q hq hcc
  rcases mem_replicate_shifted hb with ⟨i, hi, x, hx, hbx⟩
  rcases mem_replicate_shifted hq with ⟨j, hj, y, hy, hqy⟩
  have hb1 : b.1 = (x.1 - src.start) + (dest + src.size * i) := by
    rw [hbx]
    rfl
  have hq1 : q.1 = (y.1 - src.start) + (dest + src.size * j) := by
    rw [hqy]
    rfl
  have hxlo := hlb_lo x hx
  have hxhi := hlb_hi x hx
  have hylo := hlp_lo y hy
  have hyhi := hlp_hi y hy
  have hstop : src.stop = src.start + src.size := rfl
  rcases lt_trichotomy i j with h | h | h
  · have h2 : src.size * (i + 1) ≤ src.size * j := Nat.mul_le_mul (le_refl src.size) h
    have h3 : src.size * (i + 1) = src.size * i + src.size := by ring
    omega
  · subst h
    exact hdisj x hx y hy ⟨by omega, by omega⟩
  · have h2 : src.size * (j + 1) ≤ src.size * i := Nat.mul_le_mul (le_refl src.size) h
    have h3 : src.size * (j + 1) = src.size * j + src.size := by ring
    omega

theorem inv_apply_copy {Prov : Type} {cfg : Config} {m msrc : ProvenanceMap Prov}
    {src : AllocRange} {dest count : Nat} {c : ProvenanceCopy Prov}
    (hps : 1 ≤ cfg.pointer_size) (hinv : Inv cfg m)
    (hsrc_gap : PtrGap cfg.pointer_size msrc.ptrs) (hsrc_bs : PtrGap 1 msrc.bytes)
    (hsrc_disj : ∀ b ∈ msrc.bytes, ∀ q ∈ msrc.ptrs,
      ¬(q.1 ≤ b.1 ∧ b.1 < q.1 + cfg.pointer_size))
    (hok : ProvenanceMap.prepare_copy cfg msrc src dest count = Except.ok c)
    (hcleared : ProvenanceMap.range_empty cfg m ⟨dest, src.size * count⟩ = true) :
    Inv cfg (ProvenanceMap.apply_copy cfg m c) := by
  obtain ⟨hgap, hbs, hdisj, hempty⟩ := hinv
  obtain ⟨bytes1, bytes3, h1, h3, hc⟩ := prepare_copy_ok_destruct hok
  obtain ⟨hb3sorted, hb3bounds, hb3span⟩ :=
    copy_bytes3_spec hps hsrc_gap hsrc_bs hsrc_disj h1 h3
  have hcp_gap : PtrGap cfg.pointer_size
      (if src.size < cfg.pointer_size then ([] : List (Nat × Prov))
       else SortedMap.range msrc.ptrs src.start (src.stop - (cfg.pointer_size - 1))) := by
    by_cases hsz : src.size < cfg.pointer_size
    · rw [if_pos hsz]
      exact List.Pairwise.nil
    · rw [if_neg hsz]
      rw [SortedMap.range]
      exact List.Pairwise.sublist (List.filter_sublist _) hsrc_gap
  have hcp_facts : ∀ e ∈ (if src.size < cfg.pointer_size then ([] : List (Nat × Prov))
      else SortedMap.range msrc.ptrs src.start (src.stop - (cfg.pointer_size - 1))),
      e ∈ msrc.ptrs ∧ src.start ≤ e.1 ∧ e.1 + cfg.pointer_size ≤ src.stop := by
    by_cases hsz : src.size < cfg.pointer_size
    · rw [if_pos hsz]
      intro e he
      simp at he
    · rw [if_neg hsz]
      intro e he
      rcases SortedMap.mem_range.mp he with ⟨hm2, hlo, hhi⟩
      exact ⟨hm2, hlo, by omega⟩
  have hDP := replicate_shifted_gap cfg.pointer_size src dest _ hcp_gap
    (fun e he => (hcp_facts e he).2.1) (fun e he => (hcp_facts e he).2.2) count
  have hDB := replicate_shifted_gap 1 src dest bytes3 hb3sorted
    (fun e he => (hb3bounds e he).1)
    (fun e he => by have := (hb3bounds e he).2; omega) count
  have hplan := @replicate_cross_disjoint Prov src dest cfg.pointer_size bytes3
    (if src.size < cfg.pointer_size then ([] : List (Nat × Prov))
     else SortedMap.range msrc.ptrs src.start (src.stop - (cfg.pointer_size - 1)))
    (fun e he => (hb3bounds e he).1)
    (fun e he => (hb3bounds e he).2) (fun e he => (hcp_facts e he).2.1)
    (fun e he => (hcp_facts e he).2.2)
    (fun b hb q hq => hb3span b hb q (hcp_facts q hq).1 (hcp_facts q hq).2.1
      (hcp_facts q hq).2.2) count
  obtain ⟨hpn, hbn⟩ := range_empty_iff.mp hcleared
  have hWold : ∀ e ∈ m.ptrs,
      ¬(dest - (cfg.pointer_size - 1) ≤ e.1 ∧ e.1 < dest + src.size * count) := by
    intro e he hcc
    have hm2 : e ∈ ProvenanceMap.range_get_ptrs cfg m ⟨dest, src.size * count⟩ :=
      mem_range_get_ptrs.mpr ⟨he, hcc.1, hcc.2⟩
    rw [hpn] at hm2
    simp at hm2
  have hBold : ∀ b ∈ m.bytes, ¬(dest ≤ b.1 ∧ b.1 < dest + src.size * count) := by
    intro b hb hcc
    have hm2 : b ∈ ProvenanceMap.range_get_bytes m ⟨dest, src.size * count⟩ :=
      mem_range_get_bytes.mpr ⟨hb, hcc.1, hcc.2⟩
    rw [hbn] at hm2
    simp at hm2
  rw [hc]
  refine ⟨?_, ?_, ?_, ?_⟩
  · show PtrGap cfg.pointer_size (SortedMap.insert_presorted m.ptrs
      (ProvenanceMap.replicate_shifted src dest count
        (if src.size < cfg.pointer_size then ([] : List (Nat × Prov))
         else SortedMap.range msrc.ptrs src.start (src.stop - (cfg.pointer_size - 1)))))
    refine insert_presorted_gap cfg.pointer_size _ _ hgap hDP.1 ?_
    intro x hx e he
    have h1x := hDP.2 x hx
    have h2e := hWold e he
    omega
  · show PtrGap 1 (if cfg.offset_is_addr = true then
      SortedMap.insert_presorted m.bytes (ProvenanceMap.replicate_shifted src dest count
        bytes3)
      else m.bytes)
    by_cases haddr : cfg.offset_is_addr = true
    · rw [if_pos haddr]
      exact insert_presorted_sorted _ _ hbs
    · rw [if_neg haddr]
      exact hbs
  · intro b hb q hq
    have hqcases : q ∈ m.ptrs ∨ q ∈ ProvenanceMap.replicate_shifted src dest count
        (if src.size < cfg.pointer_size then ([] : List (Nat × Prov))
         else SortedMap.range msrc.ptrs src.start (src.stop - (cfg.pointer_size - 1))) :=
      SortedMap.mem_insert_presorted hq
    have hbcases : b ∈ m.bytes ∨
        b ∈ ProvenanceMap.replicate_shifted src dest count bytes3 := by
      have hb2 : b ∈ (if cfg.offset_is_addr = true then
          SortedMap.insert_presorted m.bytes
            (ProvenanceMap.replicate_shifted src dest count bytes3)
          else m.bytes) := hb
      by_cases haddr : cfg.offset_is_addr = true
      · rw [if_pos haddr] at hb2
        exact SortedMap.mem_insert_presorted hb2
      · rw [if_neg haddr] at hb2
        exact Or.inl hb2
    rcases hbcases with hbo | hbn2 <;> rcases hqcases with hqo | hqn2
    · exact hdisj b hbo q hqo
    · have h1q := hDP.2 q hqn2
      have h2b := hBold b hbo
      intro hcc
      omega
    · have h1b := hDB.2 b hbn2
      have h2q := hWold q hqo
      intro hcc
      omega
    · exact hplan b hbn2 q hqn2
  · intro hf
    show (if cfg.offset_is_addr = true then
      SortedMap.insert_presorted m.bytes (ProvenanceMap.replicate_shifted src dest count
        bytes3)
      else m.bytes) = []
    rw [if_bool_false hf]
    exact hempty hf

theorem reachable_inv {Prov : Type} {cfg : Config} {m : ProvenanceMap Prov}
    (hps : 1 ≤ cfg.pointer_size) (hm : Reachable cfg m) : Inv cfg m := by
  induction hm with
  | new =>
    exact ⟨List.Pairwise.nil, List.Pairwise.nil,
      fun b hb => absurd hb (List.not_mem_nil b), fun _ => rfl⟩
  | from_presorted r hr =>
    exact ⟨hr, List.Pairwise.nil, fun b hb => absurd hb (List.not_mem_nil b), fun _ => rfl⟩
  | insert_ptr m o p hm hemp ih => exact inv_insert_ptr hps ih p hemp
  | clear m r hm ih => exact inv_clear hps ih r
  | apply_copy m msrc src dest count c hm hsrc_gap hsrc_bs hsrc_disj hok hcleared ih =>
    exact inv_apply_copy hps ih hsrc_gap hsrc_bs hsrc_disj hok hcleared

/-- C1: along every sequence of operations admitted by `Reachable` (starting
from an empty map or a spaced presorted bulk construction, with `insert_ptr`
under its `range_empty` contract, arbitrary `clear`s, and `apply_copy` into
a cleared destination of a successfully prepared plan), any two distinct
`ptrs` keys differ by at least `pointer_size`, no `bytes` key lies inside
the span of any `ptrs` key, and `bytes` is empty for non-splittable
provenance. -/
theorem c1_operations_invariant {Prov : Type} (cfg : Config) (m : ProvenanceMap Prov)
    (hps : 1 ≤ cfg.pointer_size) (hm : Reachable cfg m) :
    (∀ e1 ∈ m.ptrs, ∀ e2 ∈ m.ptrs, e1.1 ≠ e2.1 →
      e1.1 + cfg.pointer_size ≤ e2.1 ∨ e2.1 + cfg.pointer_size ≤ e1.1) ∧
    (∀ b ∈ m.bytes, ∀ q ∈ m.ptrs, ¬(q.1 ≤ b.1 ∧ b.1 < q.1 + cfg.pointer_size)) ∧
    (cfg.offset_is_addr = false → m.bytes = []) := by
  obtain ⟨hgap, _, hdisj, hempty⟩ := reachable_inv hps hm
  refine ⟨?_, hdisj, hempty⟩
  intro e1 h1 e2 h2 hne
  rcases gap_pair_rel hgap h1 h2 with h | h | h
  · exact absurd (congrArg Prod.fst h) hne
  · exact Or.inl h
  · exact Or.inr h

/-- C1, witness: insert a pointer at offset 0 into an empty splittable map,
clear `[4, 12)` (splitting the pointer), then apply a two-repetition copy of
`[0, 8)` from a one-pointer source into the cleared range `[100, 116)`. -/
theorem c1_witness :
    ((1 : Nat) ≤ 8 ∧
        ProvenanceMap.range_empty ⟨8, true⟩ (ProvenanceMap.new Nat) ⟨0, 8⟩ = true) ∧
      ((∀ e1 ∈ (ProvenanceMap.insert_ptr (ProvenanceMap.new Nat) 0 5).ptrs,
          ∀ e2 ∈ (ProvenanceMap.insert_ptr (ProvenanceMap.new Nat) 0 5).ptrs,
            e1.1 ≠ e2.1 → e1.1 + 8 ≤ e2.1 ∨ e2.1 + 8 ≤ e1.1) ∧
        (∀ b ∈ (ProvenanceMap.insert_ptr (ProvenanceMap.new Nat) 0 5).bytes,
          ∀ q ∈ (ProvenanceMap.insert_ptr (ProvenanceMap.new Nat) 0 5).ptrs,
            ¬(q.1 ≤ b.1 ∧ b.1 < q.1 + 8)) ∧
        ((⟨8, true⟩ : Config).offset_is_addr = false →
          (ProvenanceMap.insert_ptr (ProvenanceMap.new Nat) 0 5).bytes = [])) :=
  ⟨⟨by decide, by decide⟩,
    c1_operations_invariant ⟨8, true⟩ (ProvenanceMap.insert_ptr (ProvenanceMap.new Nat) 0 5)
      (by decide)
      (Reachable.insert_ptr (ProvenanceMap.new Nat) 0 5 Reachable.new (by decide))⟩

end ProvSpec
